import Mathlib

/-!
Verification of the lexical scanner in `src/main.rs` of the lox-interpreter
repository.  The scanner (`Scanner::scan_tokens`) turns a source string into a
flat list of line-tagged tokens.  We embed the scanner shallowly: the source is
a `List Char` (Rust iterates `char`s; `current` always sits on a character
boundary, so byte offsets are equivalent to positions in the character list),
the mutable scanner state (`line`, `in_string`, `string_buffer`) becomes an
explicit `ScanSt` record, and one iteration of the `while !self.at_end()` loop
becomes the pure function `scanStep`.  Rust `String` values carried by tokens
are modelled as `List Char`.
-/

set_option autoImplicit false

/-- The `ReservedWords` enum of `main.rs` (lines 118-135). -/
inductive ReservedWords where
  | AND | CLASS | FOR | FALSE | ELSE | FUN | IF | NIL
  | OR | PRINT | RETURN | SUPER | THIS | TRUE | VAR | WHILE
deriving DecidableEq

/-- The `TokenType` enum of `main.rs` (lines 89-115).  `Error` carries the
offending character together with the line, exactly as in the source. -/
inductive TokenType where
  | LeftParen | RightParen | LeftBrace | RightBrace
  | Comma | Dot | Minus | Plus | Semicolon | Star
  | String (s : List Char)
  | Eof
  | Error (c : Char) (line : Nat)
  | Equals | DoubleEquals
  | Greater | GreaterEquals
  | LessThan | LessThanEquals
  | Bang | BangEquals
  | Slash
  | Number (s : List Char)
  | Identifier (s : List Char)
  | Reserved (w : ReservedWords)
deriving DecidableEq

/-- The `Token` struct of `main.rs` (lines 137-141): a token type plus the
1-based line on which the token was pushed. -/
structure Token where
  token_type : TokenType
  line : Nat
deriving DecidableEq

/-- The mutable state of `Scanner` (lines 143-150) apart from the token vector
and the cursor: the current line, the `in_string` flag and the string buffer.
The cursor is implicit (we pass the remaining input around). -/
structure ScanSt where
  line : Nat
  inString : Bool
  buf : List Char
deriving DecidableEq

/-- Rust's `char::is_whitespace`: the Unicode `White_Space` property
(U+0009..U+000D, U+0020, U+0085, U+00A0, U+1680, U+2000..U+200A, U+2028,
U+2029, U+202F, U+205F, U+3000). -/
def isRustWhitespace (c : Char) : Bool :=
  c = '\u0020' || ('\u0009' ≤ c && c ≤ '\u000d') || c = '\u0085' || c = '\u00a0' ||
  c = '\u1680' || ('\u2000' ≤ c && c ≤ '\u200a') ||
  c = '\u2028' || c = '\u2029' || c = '\u202f' || c = '\u205f' || c = '\u3000'

/-- The continuation-character test of `Scanner::identifier` (line 206):
`val.is_ascii_alphanumeric() || val == '_'`. -/
def isIdentChar (c : Char) : Bool :=
  c.isAlphanum || c = '_'

/-- The reserved-word map built in `Scanner::identifier` (lines 185-201),
modelled as a lookup function (the Rust code rebuilds a `HashMap` with these
sixteen entries on every call; the map is never mutated afterwards). -/
def keywordLookup (s : List Char) : Option ReservedWords :=
  if s = ("and").toList then some .AND
  else if s = ("class").toList then some .CLASS
  else if s = ("else").toList then some .ELSE
  else if s = ("false").toList then some .FALSE
  else if s = ("for").toList then some .FOR
  else if s = ("fun").toList then some .FUN
  else if s = ("if").toList then some .IF
  else if s = ("nil").toList then some .NIL
  else if s = ("or").toList then some .OR
  else if s = ("print").toList then some .PRINT
  else if s = ("return").toList then some .RETURN
  else if s = ("super").toList then some .SUPER
  else if s = ("this").toList then some .THIS
  else if s = ("true").toList then some .TRUE
  else if s = ("var").toList then some .VAR
  else if s = ("while").toList then some .WHILE
  else none

/-- The sixteen reserved-word spellings, in the insertion order of the map. -/
def reservedSpellings : List (List Char) :=
  [("and").toList, ("class").toList, ("else").toList, ("false").toList,
   ("for").toList, ("fun").toList, ("if").toList, ("nil").toList,
   ("or").toList, ("print").toList, ("return").toList, ("super").toList,
   ("this").toList, ("true").toList, ("var").toList, ("while").toList]

/-- `Scanner::identifier` (lines 184-218): starting from the already-consumed
character `curr`, consume the maximal run of identifier characters
(`while let Some(val) = self.peek() { if ... { push; advance } else break }`
is the span of `isIdentChar`), then look the accumulated text up in the
reserved-word map.  Returns the token type and the remaining input. -/
def identifier (curr : Char) (l : List Char) : TokenType × List Char :=
  let ident := curr :: l.takeWhile isIdentChar
  (match keywordLookup ident with
   | some reserved => .Reserved reserved
   | none => .Identifier ident,
   l.dropWhile isIdentChar)

/-- `Scanner::scan_number` (lines 220-248): consume a maximal digit run; then,
only if the next two characters are `'.'` followed by a digit
(`(self.peek(), self.peek_next())`), consume the dot and a further maximal
digit run.  Returns the accumulated spelling and the remaining input. -/
def scan_number (curr : Char) (l : List Char) : List Char × List Char :=
  let intDigits := l.takeWhile Char.isDigit
  match l.dropWhile Char.isDigit with
  | '.' :: next :: after =>
    if next.isDigit then
      (curr :: intDigits ++ '.' :: (next :: after).takeWhile Char.isDigit,
       (next :: after).dropWhile Char.isDigit)
    else (curr :: intDigits, '.' :: next :: after)
  | r => (curr :: intDigits, r)

/-- `Scanner::skip_line_comment` (lines 164-171): advance past characters up
to, but not including, the next `'\n'` (or to end of input). -/
def skip_line_comment : List Char → List Char
  | [] => []
  | c :: cs => if c = '\n' then c :: cs else skip_line_comment cs

/-- `Scanner::match_next` (lines 254-262): if the next character equals
`expected`, consume it and return `true`; otherwise consume nothing.  Returns
the flag and the remaining input. -/
def match_next (expected : Char) (l : List Char) : Bool × List Char :=
  match l with
  | next :: r => if next = expected then (true, r) else (false, next :: r)
  | [] => (false, [])

/-- One iteration of the `while !self.at_end()` loop of `Scanner::scan_tokens`
(lines 268-354), after `ch = self.advance().unwrap()` has consumed `ch` and
`rest` is the input after it.  The arms appear in the source's order.  Returns
the token pushed by this iteration (if any), the remaining input, and the
updated state. -/
def scanStep (ch : Char) (rest : List Char) (st : ScanSt) :
    Option Token × List Char × ScanSt :=
  if ch = '\n' then (none, rest, { st with line := st.line + 1 })
  else if ch = '(' then (some ⟨.LeftParen, st.line⟩, rest, st)
  else if ch = ')' then (some ⟨.RightParen, st.line⟩, rest, st)
  else if ch = '\x7b' then (some ⟨.LeftBrace, st.line⟩, rest, st)
  else if ch = '\x7d' then (some ⟨.RightBrace, st.line⟩, rest, st)
  else if ch = ',' then (some ⟨.Comma, st.line⟩, rest, st)
  else if ch = '.' then (some ⟨.Dot, st.line⟩, rest, st)
  else if ch = '-' then (some ⟨.Minus, st.line⟩, rest, st)
  else if ch = '+' then (some ⟨.Plus, st.line⟩, rest, st)
  else if ch = '*' then (some ⟨.Star, st.line⟩, rest, st)
  else if ch = ';' then (some ⟨.Semicolon, st.line⟩, rest, st)
  else if ch = '=' then
    (if (match_next '=' rest).1 then some ⟨.DoubleEquals, st.line⟩ else some ⟨.Equals, st.line⟩,
     (match_next '=' rest).2, st)
  else if ch = '>' then
    (if (match_next '=' rest).1 then some ⟨.GreaterEquals, st.line⟩ else some ⟨.Greater, st.line⟩,
     (match_next '=' rest).2, st)
  else if ch = '<' then
    (if (match_next '=' rest).1 then some ⟨.LessThanEquals, st.line⟩ else some ⟨.LessThan, st.line⟩,
     (match_next '=' rest).2, st)
  else if ch = '!' then
    (if (match_next '=' rest).1 then some ⟨.BangEquals, st.line⟩ else some ⟨.Bang, st.line⟩,
     (match_next '=' rest).2, st)
  else if ch = '"' then
    if st.inString then
      (some ⟨.String st.buf, st.line⟩, rest, { st with inString := false, buf := [] })
    else (none, rest, { st with inString := true })
  else if ch = '/' then
    (if (match_next '/' rest).1 then none else some ⟨.Slash, st.line⟩,
     if (match_next '/' rest).1 then skip_line_comment (match_next '/' rest).2
     else (match_next '/' rest).2,
     st)
  else if ch.isDigit then
    (some ⟨.Number (scan_number ch rest).1, st.line⟩, (scan_number ch rest).2, st)
  else if st.inString then (none, rest, { st with buf := st.buf ++ [ch] })
  else if isRustWhitespace ch then (none, rest, st)
  else if ch.isAlpha then
    (some ⟨(identifier ch rest).1, st.line⟩, (identifier ch rest).2, st)
  else (some ⟨.Error ch st.line, st.line⟩, rest, st)

/-- The loop of `Scanner::scan_tokens` (lines 268-363) together with its
end-of-input handling (lines 355-361): run `scanStep` until the input is
exhausted, then, if still inside a string literal, push the
unterminated-string sentinel `Error '"'`, and finally push `Eof`; all
end-of-input tokens carry the current line.  The `fuel` argument makes the
recursion structural; since every iteration consumes at least one character,
any fuel exceeding the input length is enough, and `scan_tokens` below
supplies it (the fuel-exhaustion branch is unreachable then, see
`scanLoop_fuel_independent`). -/
def scanLoop (fuel : Nat) (src : List Char) (st : ScanSt) : List Token :=
  match fuel, src with
  | _, [] =>
    (if st.inString then [⟨.Error '"' st.line, st.line⟩] else []) ++ [⟨.Eof, st.line⟩]
  | 0, _ :: _ => []
  | fuel + 1, ch :: rest =>
    (scanStep ch rest st).1.toList ++
      scanLoop fuel (scanStep ch rest st).2.1 (scanStep ch rest st).2.2

/-- `Scanner::scan_tokens` (lines 268-363) on a whole source string: start at
line 1, outside any string literal, with an empty buffer. -/
def scan_tokens (s : String) : List Token :=
  scanLoop (s.toList.length + 1) s.toList ⟨1, false, []⟩

/-- Ghost-instrumented scanner state: the real scanner state `st` plus two
counters that do not influence the scan — `nl` counts the newline characters
consumed so far and `qt` counts the quote toggles performed so far. -/
structure GScanSt where
  st : ScanSt
  nl : Nat
  qt : Nat
deriving DecidableEq

/-- One scanner iteration with ghost counters: the token, remaining input and
state come from `scanStep` unchanged; `nl` (resp. `qt`) is incremented exactly
when the consumed character is a newline (resp. a quote). -/
def gscanStep (ch : Char) (rest : List Char) (g : GScanSt) :
    Option Token × List Char × GScanSt :=
  ((scanStep ch rest g.st).1, (scanStep ch rest g.st).2.1,
   ⟨(scanStep ch rest g.st).2.2,
    g.nl + (if ch = '\n' then 1 else 0),
    g.qt + (if ch = '"' then 1 else 0)⟩)

/-- The scanner loop with ghost counters: each emitted token is paired with
the number of newline characters consumed before it was pushed, and the final
ghost state is returned alongside. -/
def gscanLoop (fuel : Nat) (src : List Char) (g : GScanSt) : List (Token × Nat) × GScanSt :=
  match fuel, src with
  | _, [] =>
    (((if g.st.inString then [(⟨.Error '"' g.st.line, g.st.line⟩ : Token)] else []) ++
        [(⟨.Eof, g.st.line⟩ : Token)]).map (fun t => (t, g.nl)), g)
  | 0, _ :: _ => ([], g)
  | fuel + 1, ch :: rest =>
    match gscanLoop fuel (gscanStep ch rest g).2.1 (gscanStep ch rest g).2.2 with
    | (pairs, fin) =>
      ((gscanStep ch rest g).1.toList.map (fun t => (t, g.nl)) ++ pairs, fin)

/-- The instrumented scan of a whole source string. -/
def gscan (s : String) : List (Token × Nat) × GScanSt :=
  gscanLoop (s.toList.length + 1) s.toList ⟨⟨1, false, []⟩, 0, 0⟩

/-- Recognizer for `String`-kind token types. -/
def isStringTok : TokenType → Bool
  | .String _ => true
  | _ => false

/-- Characters that, between two quotes, actually reach the in-string arm of
the dispatch: everything except the characters handled by an earlier arm of
`scan_tokens`'s `match` (newline, the ten fixed punctuation characters, the
four operator heads, the quote itself, the slash, and ASCII digits). -/
def isStringContentChar (c : Char) : Bool :=
  !(c = '\n' || c = '(' || c = ')' || c = '\x7b' || c = '\x7d' || c = ',' || c = '.' ||
    c = '-' || c = '+' || c = '*' || c = ';' || c = '=' || c = '>' || c = '<' || c = '!' ||
    c = '"' || c = '/' || c.isDigit)

/-- Shape of every `Number` spelling the scanner can build: one or more ASCII
digits, optionally followed by a dot and one or more ASCII digits. -/
def numberShape (s : List Char) : Bool :=
  let intDigits := s.takeWhile Char.isDigit
  match s.dropWhile Char.isDigit with
  | [] => !intDigits.isEmpty
  | '.' :: fracDigits => !intDigits.isEmpty && !fracDigits.isEmpty && fracDigits.all Char.isDigit
  | _ => false

/-- Modelled from the spec: the sign-stripping step of Rust's `f64` string
parser (`val.parse::<f64>()` in the `Display` impl, line 67, is outside the
scanner core; the spec requires the implementation to parse `Number`
spellings as floating-point values).  An optional leading `+` or `-`. -/
def stripSign : List Char → List Char
  | '+' :: t => t
  | '-' :: t => t
  | l => l

/-- Modelled from the spec: the exponent part of Rust's documented `f64`
grammar — either nothing, or `e`/`E`, an optional sign, and one or more
digits reaching the end of the string. -/
def acceptExp : List Char → Bool
  | [] => true
  | c :: t =>
    (c = 'e' || c = 'E') &&
      (let sgnBody := stripSign t
       !(sgnBody.takeWhile Char.isDigit).isEmpty &&
         (sgnBody.dropWhile Char.isDigit).isEmpty)

/-- Modelled from the spec: the number part of Rust's documented `f64`
grammar — `Digit+ | Digit+ '.' Digit* | Digit* '.' Digit+`, then an optional
exponent. -/
def acceptNumberBody (l : List Char) : Bool :=
  let intDigits := l.takeWhile Char.isDigit
  match l.dropWhile Char.isDigit with
  | '.' :: t =>
    (!intDigits.isEmpty || !(t.takeWhile Char.isDigit).isEmpty) &&
      acceptExp (t.dropWhile Char.isDigit)
  | r => !intDigits.isEmpty && acceptExp r

/-- Modelled from the spec: acceptance of Rust's `f64` `FromStr` instance
(the grammar documented for `f64::from_str`): an optional sign followed by
`inf`, `infinity`, `nan` (case-insensitive) or a number with optional
exponent.  Only acceptance is modelled, not the numeric value. -/
def parsesAsF64 (s : List Char) : Bool :=
  let body := stripSign s
  let lower := body.map Char.toLower
  lower = ("inf").toList || lower = ("infinity").toList || lower = ("nan").toList ||
    acceptNumberBody body

theorem skip_line_comment_length (l : List Char) :
    (skip_line_comment l).length ≤ l.length := by
  induction l with
  | nil => simp [skip_line_comment]
  | cons c cs ih =>
    simp only [skip_line_comment]
    split
    · exact Nat.le_refl _
    · exact Nat.le_succ_of_le ih

theorem scan_number_rest_length (c : Char) (l : List Char) :
    (scan_number c l).2.length ≤ l.length := by
  have hdw : (l.dropWhile Char.isDigit).length ≤ l.length :=
    (List.dropWhile_suffix _).length_le
  unfold scan_number
  split
  · rename_i next after heq
    split
    · have h2 : ((next :: after).dropWhile Char.isDigit).length ≤ (next :: after).length :=
        (List.dropWhile_suffix _).length_le
      have h3 : ('.' :: next :: after).length ≤ l.length := heq ▸ hdw
      simp only [List.length_cons] at h2 h3 ⊢
      omega
    · simpa [heq] using hdw
  · exact hdw

theorem identifier_rest_snd (c : Char) (l : List Char) :
    (identifier c l).2 = l.dropWhile isIdentChar := rfl

theorem identifier_rest_length (c : Char) (l : List Char) :
    (identifier c l).2.length ≤ l.length := by
  rw [identifier_rest_snd]
  exact (List.dropWhile_suffix _).length_le

theorem match_next_nil (expected : Char) : match_next expected [] = (false, []) := rfl

theorem match_next_pos (expected : Char) (r : List Char) :
    match_next expected (expected :: r) = (true, r) := by
  simp [match_next]

theorem match_next_neg (expected c : Char) (r : List Char) (h : c ≠ expected) :
    match_next expected (c :: r) = (false, c :: r) := by
  simp [match_next, h]

theorem match_next_snd_length (expected : Char) (l : List Char) :
    (match_next expected l).2.length ≤ l.length := by
  cases l with
  | nil => simp [match_next]
  | cons c r =>
    simp only [match_next]
    split <;> simp

theorem match_next_snd_suffix (expected : Char) (l : List Char) :
    (match_next expected l).2 <:+ l := by
  cases l with
  | nil => simp [match_next]
  | cons c r =>
    simp only [match_next]
    split
    · simp
    · exact List.suffix_refl _

theorem match_next_snd_count (expected a : Char) (l : List Char) (h : expected ≠ a) :
    (match_next expected l).2.count a = l.count a := by
  cases l with
  | nil => simp [match_next]
  | cons c r =>
    simp only [match_next]
    split
    · rename_i heq
      subst heq
      simp [List.count_cons, h]
    · rfl

/-- Case-analysis principle for `scanStep`, mirroring its `if`-chain arm by
arm; each hypothesis receives the failures of all earlier guards and the
success of its own guard. -/
theorem scanStep_cases (ch : Char) (rest : List Char) (st : ScanSt)
    (P : Option Token × List Char × ScanSt → Prop)
    (hnl : ch = '\n' → P (none, rest, { st with line := st.line + 1 }))
    (hlp : ch ≠ '\n' → ch = '(' → P (some ⟨.LeftParen, st.line⟩, rest, st))
    (hrp : ch ≠ '\n' → ch ≠ '(' → ch = ')' → P (some ⟨.RightParen, st.line⟩, rest, st))
    (hlb : ch ≠ '\n' → ch ≠ '(' → ch ≠ ')' → ch = '\x7b' → P (some ⟨.LeftBrace, st.line⟩, rest, st))
    (hrb : ch ≠ '\n' → ch ≠ '(' → ch ≠ ')' → ch ≠ '\x7b' → ch = '\x7d' → P (some ⟨.RightBrace, st.line⟩, rest, st))
    (hcm : ch ≠ '\n' → ch ≠ '(' → ch ≠ ')' → ch ≠ '\x7b' → ch ≠ '\x7d' → ch = ',' → P (some ⟨.Comma, st.line⟩, rest, st))
    (hdt : ch ≠ '\n' → ch ≠ '(' → ch ≠ ')' → ch ≠ '\x7b' → ch ≠ '\x7d' → ch ≠ ',' → ch = '.' → P (some ⟨.Dot, st.line⟩, rest, st))
    (hmn : ch ≠ '\n' → ch ≠ '(' → ch ≠ ')' → ch ≠ '\x7b' → ch ≠ '\x7d' → ch ≠ ',' → ch ≠ '.' → ch = '-' → P (some ⟨.Minus, st.line⟩, rest, st))
    (hpl : ch ≠ '\n' → ch ≠ '(' → ch ≠ ')' → ch ≠ '\x7b' → ch ≠ '\x7d' → ch ≠ ',' → ch ≠ '.' → ch ≠ '-' → ch = '+' → P (some ⟨.Plus, st.line⟩, rest, st))
    (hst : ch ≠ '\n' → ch ≠ '(' → ch ≠ ')' → ch ≠ '\x7b' → ch ≠ '\x7d' → ch ≠ ',' → ch ≠ '.' → ch ≠ '-' → ch ≠ '+' → ch = '*' → P (some ⟨.Star, st.line⟩, rest, st))
    (hsc : ch ≠ '\n' → ch ≠ '(' → ch ≠ ')' → ch ≠ '\x7b' → ch ≠ '\x7d' → ch ≠ ',' → ch ≠ '.' → ch ≠ '-' → ch ≠ '+' → ch ≠ '*' → ch = ';' → P (some ⟨.Semicolon, st.line⟩, rest, st))
    (heq : ch ≠ '\n' → ch ≠ '(' → ch ≠ ')' → ch ≠ '\x7b' → ch ≠ '\x7d' → ch ≠ ',' → ch ≠ '.' → ch ≠ '-' → ch ≠ '+' → ch ≠ '*' → ch ≠ ';' → ch = '=' → P ((if (match_next '=' rest).1 then some ⟨.DoubleEquals, st.line⟩ else some ⟨.Equals, st.line⟩), (match_next '=' rest).2, st))
    (hgt : ch ≠ '\n' → ch ≠ '(' → ch ≠ ')' → ch ≠ '\x7b' → ch ≠ '\x7d' → ch ≠ ',' → ch ≠ '.' → ch ≠ '-' → ch ≠ '+' → ch ≠ '*' → ch ≠ ';' → ch ≠ '=' → ch = '>' → P ((if (match_next '=' rest).1 then some ⟨.GreaterEquals, st.line⟩ else some ⟨.Greater, st.line⟩), (match_next '=' rest).2, st))
    (hlt : ch ≠ '\n' → ch ≠ '(' → ch ≠ ')' → ch ≠ '\x7b' → ch ≠ '\x7d' → ch ≠ ',' → ch ≠ '.' → ch ≠ '-' → ch ≠ '+' → ch ≠ '*' → ch ≠ ';' → ch ≠ '=' → ch ≠ '>' → ch = '<' → P ((if (match_next '=' rest).1 then some ⟨.LessThanEquals, st.line⟩ else some ⟨.LessThan, st.line⟩), (match_next '=' rest).2, st))
    (hbg : ch ≠ '\n' → ch ≠ '(' → ch ≠ ')' → ch ≠ '\x7b' → ch ≠ '\x7d' → ch ≠ ',' → ch ≠ '.' → ch ≠ '-' → ch ≠ '+' → ch ≠ '*' → ch ≠ ';' → ch ≠ '=' → ch ≠ '>' → ch ≠ '<' → ch = '!' → P ((if (match_next '=' rest).1 then some ⟨.BangEquals, st.line⟩ else some ⟨.Bang, st.line⟩), (match_next '=' rest).2, st))
    (hqo : ch ≠ '\n' → ch ≠ '(' → ch ≠ ')' → ch ≠ '\x7b' → ch ≠ '\x7d' → ch ≠ ',' → ch ≠ '.' → ch ≠ '-' → ch ≠ '+' → ch ≠ '*' → ch ≠ ';' → ch ≠ '=' → ch ≠ '>' → ch ≠ '<' → ch ≠ '!' → ch = '"' → st.inString = true → P (some ⟨.String st.buf, st.line⟩, rest, { st with inString := false, buf := [] }))
    (hqc : ch ≠ '\n' → ch ≠ '(' → ch ≠ ')' → ch ≠ '\x7b' → ch ≠ '\x7d' → ch ≠ ',' → ch ≠ '.' → ch ≠ '-' → ch ≠ '+' → ch ≠ '*' → ch ≠ ';' → ch ≠ '=' → ch ≠ '>' → ch ≠ '<' → ch ≠ '!' → ch = '"' → st.inString = false → P (none, rest, { st with inString := true }))
    (hsl : ch ≠ '\n' → ch ≠ '(' → ch ≠ ')' → ch ≠ '\x7b' → ch ≠ '\x7d' → ch ≠ ',' → ch ≠ '.' → ch ≠ '-' → ch ≠ '+' → ch ≠ '*' → ch ≠ ';' → ch ≠ '=' → ch ≠ '>' → ch ≠ '<' → ch ≠ '!' → ch ≠ '"' → ch = '/' → P ((if (match_next '/' rest).1 then none else some ⟨.Slash, st.line⟩), (if (match_next '/' rest).1 then skip_line_comment (match_next '/' rest).2 else (match_next '/' rest).2), st))
    (hdg : ch ≠ '\n' → ch ≠ '(' → ch ≠ ')' → ch ≠ '\x7b' → ch ≠ '\x7d' → ch ≠ ',' → ch ≠ '.' → ch ≠ '-' → ch ≠ '+' → ch ≠ '*' → ch ≠ ';' → ch ≠ '=' → ch ≠ '>' → ch ≠ '<' → ch ≠ '!' → ch ≠ '"' → ch ≠ '/' → ch.isDigit = true → P (some ⟨.Number (scan_number ch rest).1, st.line⟩, (scan_number ch rest).2, st))
    (hin : ch ≠ '\n' → ch ≠ '(' → ch ≠ ')' → ch ≠ '\x7b' → ch ≠ '\x7d' → ch ≠ ',' → ch ≠ '.' → ch ≠ '-' → ch ≠ '+' → ch ≠ '*' → ch ≠ ';' → ch ≠ '=' → ch ≠ '>' → ch ≠ '<' → ch ≠ '!' → ch ≠ '"' → ch ≠ '/' → ch.isDigit = false → st.inString = true → P (none, rest, { st with buf := st.buf ++ [ch] }))
    (hws : ch ≠ '\n' → ch ≠ '(' → ch ≠ ')' → ch ≠ '\x7b' → ch ≠ '\x7d' → ch ≠ ',' → ch ≠ '.' → ch ≠ '-' → ch ≠ '+' → ch ≠ '*' → ch ≠ ';' → ch ≠ '=' → ch ≠ '>' → ch ≠ '<' → ch ≠ '!' → ch ≠ '"' → ch ≠ '/' → ch.isDigit = false → st.inString = false → isRustWhitespace ch = true → P (none, rest, st))
    (hal : ch ≠ '\n' → ch ≠ '(' → ch ≠ ')' → ch ≠ '\x7b' → ch ≠ '\x7d' → ch ≠ ',' → ch ≠ '.' → ch ≠ '-' → ch ≠ '+' → ch ≠ '*' → ch ≠ ';' → ch ≠ '=' → ch ≠ '>' → ch ≠ '<' → ch ≠ '!' → ch ≠ '"' → ch ≠ '/' → ch.isDigit = false → st.inString = false → isRustWhitespace ch = false → ch.isAlpha = true → P (some ⟨(identifier ch rest).1, st.line⟩, (identifier ch rest).2, st))
    (her : ch ≠ '\n' → ch ≠ '(' → ch ≠ ')' → ch ≠ '\x7b' → ch ≠ '\x7d' → ch ≠ ',' → ch ≠ '.' → ch ≠ '-' → ch ≠ '+' → ch ≠ '*' → ch ≠ ';' → ch ≠ '=' → ch ≠ '>' → ch ≠ '<' → ch ≠ '!' → ch ≠ '"' → ch ≠ '/' → ch.isDigit = false → st.inString = false → isRustWhitespace ch = false → ch.isAlpha = false → P (some ⟨.Error ch st.line, st.line⟩, rest, st)) :
    P (scanStep ch rest st) := by
  unfold scanStep
  by_cases c1 : ch = '\n'
  · rw [if_pos c1]
    exact hnl c1
  · rw [if_neg c1]
    by_cases c2 : ch = '('
    · rw [if_pos c2]
      exact hlp c1 c2
    · rw [if_neg c2]
      by_cases c3 : ch = ')'
      · rw [if_pos c3]
        exact hrp c1 c2 c3
      · rw [if_neg c3]
        by_cases c4 : ch = '\x7b'
        · rw [if_pos c4]
          exact hlb c1 c2 c3 c4
        · rw [if_neg c4]
          by_cases c5 : ch = '\x7d'
          · rw [if_pos c5]
            exact hrb c1 c2 c3 c4 c5
          · rw [if_neg c5]
            by_cases c6 : ch = ','
            · rw [if_pos c6]
              exact hcm c1 c2 c3 c4 c5 c6
            · rw [if_neg c6]
              by_cases c7 : ch = '.'
              · rw [if_pos c7]
                exact hdt c1 c2 c3 c4 c5 c6 c7
              · rw [if_neg c7]
                by_cases c8 : ch = '-'
                · rw [if_pos c8]
                  exact hmn c1 c2 c3 c4 c5 c6 c7 c8
                · rw [if_neg c8]
                  by_cases c9 : ch = '+'
                  · rw [if_pos c9]
                    exact hpl c1 c2 c3 c4 c5 c6 c7 c8 c9
                  · rw [if_neg c9]
                    by_cases c10 : ch = '*'
                    · rw [if_pos c10]
                      exact hst c1 c2 c3 c4 c5 c6 c7 c8 c9 c10
                    · rw [if_neg c10]
                      by_cases c11 : ch = ';'
                      · rw [if_pos c11]
                        exact hsc c1 c2 c3 c4 c5 c6 c7 c8 c9 c10 c11
                      · rw [if_neg c11]
                        by_cases c12 : ch = '='
                        · rw [if_pos c12]
                          exact heq c1 c2 c3 c4 c5 c6 c7 c8 c9 c10 c11 c12
                        · rw [if_neg c12]
                          by_cases c13 : ch = '>'
                          · rw [if_pos c13]
                            exact hgt c1 c2 c3 c4 c5 c6 c7 c8 c9 c10 c11 c12 c13
                          · rw [if_neg c13]
                            by_cases c14 : ch = '<'
                            · rw [if_pos c14]
                              exact hlt c1 c2 c3 c4 c5 c6 c7 c8 c9 c10 c11 c12 c13 c14
                            · rw [if_neg c14]
                              by_cases c15 : ch = '!'
                              · rw [if_pos c15]
                                exact hbg c1 c2 c3 c4 c5 c6 c7 c8 c9 c10 c11 c12 c13 c14 c15
                              · rw [if_neg c15]
                                by_cases c16 : ch = '"'
                                · rw [if_pos c16]
                                  by_cases cs : st.inString = true
                                  · rw [if_pos cs]
                                    exact hqo c1 c2 c3 c4 c5 c6 c7 c8 c9 c10 c11 c12 c13 c14 c15 c16 cs
                                  · rw [if_neg cs]
                                    exact hqc c1 c2 c3 c4 c5 c6 c7 c8 c9 c10 c11 c12 c13 c14 c15 c16 (by simpa using cs)
                                · rw [if_neg c16]
                                  by_cases c17 : ch = '/'
                                  · rw [if_pos c17]
                                    exact hsl c1 c2 c3 c4 c5 c6 c7 c8 c9 c10 c11 c12 c13 c14 c15 c16 c17
                                  · rw [if_neg c17]
                                    by_cases c18 : ch.isDigit = true
                                    · rw [if_pos c18]
                                      exact hdg c1 c2 c3 c4 c5 c6 c7 c8 c9 c10 c11 c12 c13 c14 c15 c16 c17 c18
                                    · rw [if_neg c18]
                                      have c18f : ch.isDigit = false := by simpa using c18
                                      by_cases c19 : st.inString = true
                                      · rw [if_pos c19]
                                        exact hin c1 c2 c3 c4 c5 c6 c7 c8 c9 c10 c11 c12 c13 c14 c15 c16 c17 c18f c19
                                      · rw [if_neg c19]
                                        have c19f : st.inString = false := by simpa using c19
                                        by_cases c20 : isRustWhitespace ch = true
                                        · rw [if_pos c20]
                                          exact hws c1 c2 c3 c4 c5 c6 c7 c8 c9 c10 c11 c12 c13 c14 c15 c16 c17 c18f c19f c20
                                        · rw [if_neg c20]
                                          have c20f : isRustWhitespace ch = false := by simpa using c20
                                          by_cases c21 : ch.isAlpha = true
                                          · rw [if_pos c21]
                                            exact hal c1 c2 c3 c4 c5 c6 c7 c8 c9 c10 c11 c12 c13 c14 c15 c16 c17 c18f c19f c20f c21
                                          · rw [if_neg c21]
                                            have c21f : ch.isAlpha = false := by simpa using c21
                                            exact her c1 c2 c3 c4 c5 c6 c7 c8 c9 c10 c11 c12 c13 c14 c15 c16 c17 c18f c19f c20f c21f

theorem scanStep_rest_length (ch : Char) (rest : List Char) (st : ScanSt) :
    (scanStep ch rest st).2.1.length ≤ rest.length := by
  apply scanStep_cases ch rest st (fun out => out.2.1.length ≤ rest.length)
  all_goals intros
  any_goals exact Nat.le_refl _
  any_goals exact scan_number_rest_length ch rest
  any_goals exact identifier_rest_length ch rest
  any_goals exact match_next_snd_length '=' rest
  all_goals
    (show (if (match_next '/' rest).1 then skip_line_comment (match_next '/' rest).2
           else (match_next '/' rest).2).length ≤ rest.length
     split
     · exact Nat.le_trans (skip_line_comment_length _) (match_next_snd_length '/' rest)
     · exact match_next_snd_length '/' rest)

theorem count_dropWhile_eq (p : Char → Bool) (a : Char) (hp : p a = false) (l : List Char) :
    (l.dropWhile p).count a = l.count a := by
  induction l with
  | nil => rfl
  | cons c cs ih =>
    rw [List.dropWhile_cons]
    split
    · rename_i hc
      have hca : ¬(c = a) := fun h => by rw [h, hp] at hc; cases hc
      rw [ih, List.count_cons]
      simp [hca]
    · rfl

theorem skip_line_comment_count (l : List Char) :
    (skip_line_comment l).count '\n' = l.count '\n' := by
  induction l with
  | nil => rfl
  | cons c cs ih =>
    simp only [skip_line_comment]
    split
    · rfl
    · rename_i h
      rw [ih]
      simp [List.count_cons, h]

theorem scan_number_rest_count (c : Char) (l : List Char) :
    (scan_number c l).2.count '\n' = l.count '\n' := by
  have h0 : (l.dropWhile Char.isDigit).count '\n' = l.count '\n' :=
    count_dropWhile_eq _ _ (by decide) l
  unfold scan_number
  split
  · rename_i next after heq
    split
    · have h1 : ((next :: after).dropWhile Char.isDigit).count '\n' = (next :: after).count '\n' :=
        count_dropWhile_eq _ _ (by decide) _
      have h2 : ('.' :: next :: after).count '\n' = l.count '\n' := by rw [← heq]; exact h0
      rw [List.count_cons, if_neg (by decide), Nat.add_zero] at h2
      rw [h1]
      exact h2
    · simpa [heq] using h0
  · exact h0

theorem identifier_rest_count (c : Char) (l : List Char) :
    (identifier c l).2.count '\n' = l.count '\n' := by
  rw [identifier_rest_snd]
  exact count_dropWhile_eq _ _ (by decide) l

theorem skip_line_comment_suffix (l : List Char) : skip_line_comment l <:+ l := by
  induction l with
  | nil => exact List.suffix_refl _
  | cons c cs ih =>
    simp only [skip_line_comment]
    split
    · exact List.suffix_refl _
    · exact ih.trans (List.suffix_cons c cs)

theorem scan_number_rest_suffix (c : Char) (l : List Char) :
    (scan_number c l).2 <:+ l := by
  unfold scan_number
  split
  · rename_i next after heq
    split
    · have h1 : (next :: after).dropWhile Char.isDigit <:+ next :: after :=
        List.dropWhile_suffix _
      have h2 : next :: after <:+ '.' :: next :: after := List.suffix_cons _ _
      have h3 : '.' :: next :: after <:+ l := heq ▸ List.dropWhile_suffix _
      exact (h1.trans h2).trans h3
    · exact heq ▸ List.dropWhile_suffix _
  · exact List.dropWhile_suffix _

theorem identifier_fst_not_eof (c : Char) (l : List Char) :
    (identifier c l).1 ≠ .Eof := by
  rcases h : keywordLookup (c :: l.takeWhile isIdentChar) with _ | r <;> simp [identifier, h]

theorem identifier_fst_not_error (c : Char) (l : List Char) (e : Char) (m : Nat) :
    (identifier c l).1 ≠ .Error e m := by
  rcases h : keywordLookup (c :: l.takeWhile isIdentChar) with _ | r <;> simp [identifier, h]

theorem isStringTok_identifier (c : Char) (l : List Char) :
    isStringTok (identifier c l).1 = false := by
  rcases h : keywordLookup (c :: l.takeWhile isIdentChar) with _ | r <;>
    simp [identifier, h, isStringTok]

theorem identifier_fst_not_number (c : Char) (l : List Char) (v : List Char) :
    (identifier c l).1 ≠ .Number v := by
  rcases h : keywordLookup (c :: l.takeWhile isIdentChar) with _ | r <;>
    simp [identifier, h]

theorem scanStep_token_line (ch : Char) (rest : List Char) (st : ScanSt) :
    ∀ t, (scanStep ch rest st).1 = some t → t.line = st.line := by
  apply scanStep_cases ch rest st (fun out => ∀ t, out.1 = some t → t.line = st.line)
  all_goals intros
  all_goals try split_ifs at *
  all_goals rename_i ht
  all_goals first
    | exact Option.noConfusion ht
    | (obtain rfl := Option.some_inj.mp ht
       rfl)

theorem scanStep_final_line (ch : Char) (rest : List Char) (st : ScanSt) :
    (scanStep ch rest st).2.2.line = st.line + (if ch = '\n' then 1 else 0) := by
  apply scanStep_cases ch rest st
    (fun out => out.2.2.line = st.line + (if ch = '\n' then 1 else 0))
  all_goals intros
  all_goals simp_all

theorem scanStep_final_inString (ch : Char) (rest : List Char) (st : ScanSt) :
    (scanStep ch rest st).2.2.inString = (if ch = '"' then !st.inString else st.inString) := by
  apply scanStep_cases ch rest st
    (fun out => out.2.2.inString = (if ch = '"' then !st.inString else st.inString))
  all_goals intros
  all_goals simp_all +decide

theorem scanStep_not_eof_or_qerr (ch : Char) (rest : List Char) (st : ScanSt) :
    ∀ t, (scanStep ch rest st).1 = some t →
      t.token_type ≠ .Eof ∧ ∀ m, t.token_type ≠ .Error '"' m := by
  apply scanStep_cases ch rest st
    (fun out => ∀ t, out.1 = some t →
      t.token_type ≠ .Eof ∧ ∀ m, t.token_type ≠ .Error '"' m)
  all_goals intros
  all_goals try split_ifs at *
  all_goals rename_i ht
  all_goals first
    | exact Option.noConfusion ht
    | (obtain rfl := Option.some_inj.mp ht
       exact ⟨identifier_fst_not_eof _ _, fun m => identifier_fst_not_error _ _ _ _⟩)
    | (obtain rfl := Option.some_inj.mp ht
       refine ⟨by simp, fun m => by simp_all⟩)

theorem scanStep_rest_count (ch : Char) (rest : List Char) (st : ScanSt) :
    (scanStep ch rest st).2.1.count '\n' = rest.count '\n' := by
  apply scanStep_cases ch rest st (fun out => out.2.1.count '\n' = rest.count '\n')
  all_goals intros
  any_goals rfl
  any_goals exact scan_number_rest_count ch rest
  any_goals exact identifier_rest_count ch rest
  any_goals exact match_next_snd_count '=' '\n' rest (by decide)
  all_goals
    (show (if (match_next '/' rest).1 then skip_line_comment (match_next '/' rest).2
           else (match_next '/' rest).2).count '\n' = rest.count '\n'
     split
     · rw [skip_line_comment_count]
       exact match_next_snd_count '/' '\n' rest (by decide)
     · exact match_next_snd_count '/' '\n' rest (by decide))

theorem scanStep_rest_suffix (ch : Char) (rest : List Char) (st : ScanSt) :
    (scanStep ch rest st).2.1 <:+ rest := by
  apply scanStep_cases ch rest st (fun out => out.2.1 <:+ rest)
  all_goals intros
  all_goals first
    | exact List.suffix_refl _
    | exact scan_number_rest_suffix ch rest
    | (rw [identifier_rest_snd]
       exact List.dropWhile_suffix _)
    | exact match_next_snd_suffix '=' rest
    | (show (if (match_next '/' rest).1 then skip_line_comment (match_next '/' rest).2
             else (match_next '/' rest).2) <:+ rest
       split
       · exact (skip_line_comment_suffix _).trans (match_next_snd_suffix '/' rest)
       · exact match_next_snd_suffix '/' rest)

theorem scanStep_string_accounting (ch : Char) (rest : List Char) (st : ScanSt) :
    2 * ((scanStep ch rest st).1.toList.countP (fun t => isStringTok t.token_type)) +
        (if (scanStep ch rest st).2.2.inString then 1 else 0) =
      (if ch = '"' then 1 else 0) + (if st.inString then 1 else 0) := by
  apply scanStep_cases ch rest st
    (fun out => 2 * (out.1.toList.countP (fun t => isStringTok t.token_type)) +
        (if out.2.2.inString then 1 else 0) =
      (if ch = '"' then 1 else 0) + (if st.inString then 1 else 0))
  all_goals intros
  all_goals try split_ifs at *
  all_goals try simp_all +decide [isStringTok]
  all_goals
    (rcases hk : keywordLookup (ch :: rest.takeWhile isIdentChar) with _ | r <;>
      simp_all [identifier, isStringTok])

theorem scanStep_number_src (ch : Char) (rest : List Char) (st : ScanSt) :
    ∀ t, (scanStep ch rest st).1 = some t → ∀ v, t.token_type = .Number v →
      ch.isDigit = true ∧ v = (scan_number ch rest).1 := by
  apply scanStep_cases ch rest st
    (fun out => ∀ t, out.1 = some t → ∀ v, t.token_type = .Number v →
      ch.isDigit = true ∧ v = (scan_number ch rest).1)
  all_goals intros
  all_goals rename_i t ht v hv
  all_goals try split_ifs at ht
  all_goals try exact Option.noConfusion ht
  all_goals obtain rfl := Option.some_inj.mp ht
  all_goals first
    | exact absurd hv (identifier_fst_not_number _ _ _)
    | simp_all

theorem uint32_le_iff_toNat {a b : UInt32} : a ≤ b ↔ a.toNat ≤ b.toNat := by
  rw [UInt32.le_def, BitVec.le_def]
  exact Iff.rfl

theorem char_le_iff_toNat {a b : Char} : a ≤ b ↔ a.toNat ≤ b.toNat := by
  rw [Char.le_def, uint32_le_iff_toNat]
  exact Iff.rfl

theorem char_eq_iff_toNat {a b : Char} : a = b ↔ a.toNat = b.toNat := by
  constructor
  · rintro rfl
    rfl
  · intro h
    have h2 := congrArg Char.ofNat h
    rwa [Char.ofNat_toNat, Char.ofNat_toNat] at h2

theorem isDigit_toNat {c : Char} : c.isDigit = true ↔ (48 ≤ c.toNat ∧ c.toNat ≤ 57) := by
  have h48 : (48 : UInt32).toNat = 48 := by decide
  have h57 : (57 : UInt32).toNat = 57 := by decide
  simp only [Char.isDigit, GE.ge, Bool.and_eq_true, decide_eq_true_eq]
  rw [uint32_le_iff_toNat, uint32_le_iff_toNat, h48, h57]
  exact Iff.rfl

theorem isAlpha_toNat {c : Char} :
    c.isAlpha = true ↔ ((65 ≤ c.toNat ∧ c.toNat ≤ 90) ∨ (97 ≤ c.toNat ∧ c.toNat ≤ 122)) := by
  have h65 : (65 : UInt32).toNat = 65 := by decide
  have h90 : (90 : UInt32).toNat = 90 := by decide
  have h97 : (97 : UInt32).toNat = 97 := by decide
  have h122 : (122 : UInt32).toNat = 122 := by decide
  simp only [Char.isAlpha, Char.isUpper, Char.isLower, GE.ge, Bool.or_eq_true,
    Bool.and_eq_true, decide_eq_true_eq]
  rw [uint32_le_iff_toNat, uint32_le_iff_toNat, uint32_le_iff_toNat, uint32_le_iff_toNat,
    h65, h90, h97, h122]
  exact Iff.rfl

theorem isRustWhitespace_toNat {c : Char} (h : isRustWhitespace c = true) :
    c.toNat = 32 ∨ (9 ≤ c.toNat ∧ c.toNat ≤ 13) ∨ c.toNat = 133 ∨ c.toNat = 160 ∨
    c.toNat = 5760 ∨ (8192 ≤ c.toNat ∧ c.toNat ≤ 8202) ∨ c.toNat = 8232 ∨
    c.toNat = 8233 ∨ c.toNat = 8239 ∨ c.toNat = 8287 ∨ c.toNat = 12288 := by
  simp only [isRustWhitespace, Bool.or_eq_true, Bool.and_eq_true, decide_eq_true_eq] at h
  have e1 : ('\u0009' : Char).toNat = 9 := by decide
  have e2 : ('\u000d' : Char).toNat = 13 := by decide
  have e3 : (' ' : Char).toNat = 8192 := by decide
  have e4 : (' ' : Char).toNat = 8202 := by decide
  rcases h with ((((((((((h | h) | h) | h) | h) | h) | h) | h) | h) | h) | h)
  · subst h; decide
  · obtain ⟨h1, h2⟩ := h
    rw [char_le_iff_toNat, e1] at h1
    rw [char_le_iff_toNat, e2] at h2
    omega
  · subst h; decide
  · subst h; decide
  · subst h; decide
  · obtain ⟨h1, h2⟩ := h
    rw [char_le_iff_toNat, e3] at h1
    rw [char_le_iff_toNat, e4] at h2
    omega
  · subst h; decide
  · subst h; decide
  · subst h; decide
  · subst h; decide
  · subst h; decide

theorem isAlpha_isDigit_false {c : Char} (h : c.isAlpha = true) : c.isDigit = false := by
  cases hd : c.isDigit
  · rfl
  · exfalso
    have h1 := isAlpha_toNat.mp h
    have h2 := isDigit_toNat.mp hd
    omega

theorem isAlpha_not_whitespace {c : Char} (h : c.isAlpha = true) :
    isRustWhitespace c = false := by
  cases hw : isRustWhitespace c
  · rfl
  · exfalso
    have h1 := isAlpha_toNat.mp h
    have h2 := isRustWhitespace_toNat hw
    omega

theorem scanStep_digit (ch : Char) (rest : List Char) (st : ScanSt)
    (hd : ch.isDigit = true) :
    scanStep ch rest st =
      (some ⟨.Number (scan_number ch rest).1, st.line⟩, (scan_number ch rest).2, st) := by
  apply scanStep_cases ch rest st
    (fun out => out =
      (some ⟨.Number (scan_number ch rest).1, st.line⟩, (scan_number ch rest).2, st))
  all_goals intros
  all_goals first | rfl | simp_all +decide

theorem scanStep_alpha (ch : Char) (rest : List Char) (st : ScanSt)
    (ha : ch.isAlpha = true) (hs : st.inString = false) :
    scanStep ch rest st =
      (some ⟨(identifier ch rest).1, st.line⟩, (identifier ch rest).2, st) := by
  have hd := isAlpha_isDigit_false ha
  have hw := isAlpha_not_whitespace ha
  apply scanStep_cases ch rest st
    (fun out => out = (some ⟨(identifier ch rest).1, st.line⟩, (identifier ch rest).2, st))
  all_goals intros
  all_goals first | rfl | simp_all +decide

theorem scanStep_string_content (ch : Char) (rest : List Char) (st : ScanSt)
    (hc : isStringContentChar ch = true) (hs : st.inString = true) :
    scanStep ch rest st = (none, rest, { st with buf := st.buf ++ [ch] }) := by
  simp only [isStringContentChar, Bool.not_eq_true', Bool.or_eq_false_iff,
    decide_eq_false_iff_not] at hc
  apply scanStep_cases ch rest st
    (fun out => out = (none, rest, { st with buf := st.buf ++ [ch] }))
  all_goals intros
  all_goals first | rfl | simp_all +decide

theorem gscanLoop_map_fst : ∀ (fuel : Nat) (src : List Char) (g : GScanSt),
    src.length < fuel →
    (gscanLoop fuel src g).1.map Prod.fst = scanLoop fuel src g.st := by
  intro fuel
  induction fuel with
  | zero => intro src g h; exact absurd h (Nat.not_lt_zero _)
  | succ f ih =>
    intro src g h
    cases src with
    | nil => cases hb : g.st.inString <;> simp [gscanLoop, scanLoop, hb]
    | cons ch rest =>
      have hlen : (scanStep ch rest g.st).2.1.length < f := by
        have h1 := scanStep_rest_length ch rest g.st
        simp only [List.length_cons] at h
        omega
      have hih := ih (gscanStep ch rest g).2.1 (gscanStep ch rest g).2.2 hlen
      rcases hE : gscanLoop f (gscanStep ch rest g).2.1 (gscanStep ch rest g).2.2 with ⟨pairs, fin⟩
      rw [hE] at hih
      simp only [gscanLoop, scanLoop, hE]
      simp only [List.map_append, List.map_map]
      rw [hih]
      have hid : (Prod.fst ∘ fun t : Token => (t, g.nl)) = id := rfl
      rw [hid, List.map_id]
      rfl

theorem gscanLoop_structure : ∀ (fuel : Nat) (src : List Char) (g : GScanSt),
    src.length < fuel →
    ∃ pre, (gscanLoop fuel src g).1 =
        pre ++ ((if (gscanLoop fuel src g).2.st.inString then
            [(⟨.Error '"' (gscanLoop fuel src g).2.st.line,
               (gscanLoop fuel src g).2.st.line⟩ : Token)]
          else []) ++ [(⟨.Eof, (gscanLoop fuel src g).2.st.line⟩ : Token)]).map
            (fun t => (t, (gscanLoop fuel src g).2.nl)) ∧
      ∀ p ∈ pre, p.1.token_type ≠ .Eof ∧ ∀ m, p.1.token_type ≠ .Error '"' m := by
  intro fuel
  induction fuel with
  | zero => intro src g h; exact absurd h (Nat.not_lt_zero _)
  | succ f ih =>
    intro src g h
    cases src with
    | nil =>
      refine ⟨[], ?_, ?_⟩
      · simp [gscanLoop]
      · intro p hp
        exact absurd hp (List.not_mem_nil p)
    | cons ch rest =>
      have hlen : (scanStep ch rest g.st).2.1.length < f := by
        have h1 := scanStep_rest_length ch rest g.st
        simp only [List.length_cons] at h
        omega
      obtain ⟨pre, hpre, hnone⟩ := ih (gscanStep ch rest g).2.1 (gscanStep ch rest g).2.2 hlen
      rcases hE : gscanLoop f (gscanStep ch rest g).2.1 (gscanStep ch rest g).2.2 with ⟨pairs, fin⟩
      rw [hE] at hpre
      refine ⟨(gscanStep ch rest g).1.toList.map (fun t => (t, g.nl)) ++ pre, ?_, ?_⟩
      · simp only at hpre
        simp only [gscanLoop, hE]
        rw [hpre, List.append_assoc]
      · intro p hp
        rcases List.mem_append.mp hp with hp1 | hp2
        · rcases List.mem_map.mp hp1 with ⟨t, ht, rfl⟩
          have hsome : (scanStep ch rest g.st).1 = some t := by
            have h2 := Option.mem_toList.mp ht
            simpa [Option.mem_def, gscanStep] using h2
          exact scanStep_not_eof_or_qerr ch rest g.st t hsome
        · exact hnone p hp2

theorem gscanLoop_elem : ∀ (fuel : Nat) (src : List Char) (g : GScanSt),
    src.length < fuel →
    ∀ p ∈ (gscanLoop fuel src g).1, p.1.line + g.nl = p.2 + g.st.line ∧ g.nl ≤ p.2 := by
  intro fuel
  induction fuel with
  | zero => intro src g h; exact absurd h (Nat.not_lt_zero _)
  | succ f ih =>
    intro src g h
    cases src with
    | nil =>
      intro p hp
      simp only [gscanLoop] at hp
      rcases List.mem_map.mp hp with ⟨t, ht, rfl⟩
      rcases List.mem_append.mp ht with ht1 | ht2
      · by_cases hb : g.st.inString = true
        · rw [if_pos hb] at ht1
          simp only [List.mem_singleton] at ht1
          subst ht1
          exact ⟨Nat.add_comm _ _, Nat.le_refl _⟩
        · rw [if_neg hb] at ht1
          exact absurd ht1 (List.not_mem_nil t)
      · simp only [List.mem_singleton] at ht2
        subst ht2
        exact ⟨Nat.add_comm _ _, Nat.le_refl _⟩
    | cons ch rest =>
      intro p hp
      have hlen : (scanStep ch rest g.st).2.1.length < f := by
        have h1 := scanStep_rest_length ch rest g.st
        simp only [List.length_cons] at h
        omega
      rcases hE : gscanLoop f (gscanStep ch rest g).2.1 (gscanStep ch rest g).2.2 with ⟨pairs, fin⟩
      simp only [gscanLoop, hE] at hp
      rcases List.mem_append.mp hp with hp1 | hp2
      · rcases List.mem_map.mp hp1 with ⟨t, ht, rfl⟩
        have hsome : (scanStep ch rest g.st).1 = some t := by
          have h2 := Option.mem_toList.mp ht
          simpa [Option.mem_def, gscanStep] using h2
        have hline := scanStep_token_line ch rest g.st t hsome
        exact ⟨by rw [hline]; exact Nat.add_comm _ _, Nat.le_refl _⟩
      · have hrec := ih (gscanStep ch rest g).2.1 (gscanStep ch rest g).2.2 hlen p
          (by rw [hE]; exact hp2)
        have hnl : (gscanStep ch rest g).2.2.nl = g.nl + (if ch = '\n' then 1 else 0) := rfl
        have hline : (gscanStep ch rest g).2.2.st.line =
            g.st.line + (if ch = '\n' then 1 else 0) := scanStep_final_line ch rest g.st
        rw [hnl, hline] at hrec
        exact ⟨by omega, by omega⟩

theorem gscanLoop_final : ∀ (fuel : Nat) (src : List Char) (g : GScanSt),
    src.length < fuel →
    (gscanLoop fuel src g).2.st.line + g.nl = (gscanLoop fuel src g).2.nl + g.st.line ∧
    g.nl ≤ (gscanLoop fuel src g).2.nl ∧
    (gscanLoop fuel src g).2.nl = g.nl + src.count '\n' ∧
    g.qt ≤ (gscanLoop fuel src g).2.qt := by
  intro fuel
  induction fuel with
  | zero => intro src g h; exact absurd h (Nat.not_lt_zero _)
  | succ f ih =>
    intro src g h
    cases src with
    | nil =>
      refine ⟨Nat.add_comm _ _, Nat.le_refl _, ?_, Nat.le_refl _⟩
      simp [gscanLoop]
    | cons ch rest =>
      have hlen : (scanStep ch rest g.st).2.1.length < f := by
        have h1 := scanStep_rest_length ch rest g.st
        simp only [List.length_cons] at h
        omega
      have hrec := ih (gscanStep ch rest g).2.1 (gscanStep ch rest g).2.2 hlen
      rcases hE : gscanLoop f (gscanStep ch rest g).2.1 (gscanStep ch rest g).2.2 with ⟨pairs, fin⟩
      rw [hE] at hrec
      simp only at hrec
      have hnl : (gscanStep ch rest g).2.2.nl = g.nl + (if ch = '\n' then 1 else 0) := rfl
      have hqt : (gscanStep ch rest g).2.2.qt = g.qt + (if ch = '"' then 1 else 0) := rfl
      have hline : (gscanStep ch rest g).2.2.st.line =
          g.st.line + (if ch = '\n' then 1 else 0) := scanStep_final_line ch rest g.st
      have hcnt : (gscanStep ch rest g).2.1.count '\n' = rest.count '\n' :=
        scanStep_rest_count ch rest g.st
      have hccons : (ch :: rest).count '\n' = rest.count '\n' + (if ch = '\n' then 1 else 0) := by
        rw [List.count_cons]
        simp [beq_iff_eq]
      rw [hnl, hqt, hline, hcnt] at hrec
      simp only [gscanLoop, hE, hccons]
      exact ⟨by omega, by omega, by omega, by omega⟩

theorem gscanLoop_chain : ∀ (fuel : Nat) (src : List Char) (g : GScanSt),
    src.length < fuel →
    List.Chain' (fun p q : Token × Nat => p.2 ≤ q.2 ∧ q.1.line + p.2 = p.1.line + q.2)
      (gscanLoop fuel src g).1 := by
  intro fuel
  induction fuel with
  | zero => intro src g h; exact absurd h (Nat.not_lt_zero _)
  | succ f ih =>
    intro src g h
    cases src with
    | nil =>
      by_cases hb : g.st.inString = true <;>
        simp [gscanLoop, hb, List.chain'_cons, List.chain'_singleton]
    | cons ch rest =>
      have hlen : (scanStep ch rest g.st).2.1.length < f := by
        have h1 := scanStep_rest_length ch rest g.st
        simp only [List.length_cons] at h
        omega
      have hrec := ih (gscanStep ch rest g).2.1 (gscanStep ch rest g).2.2 hlen
      rcases hE : gscanLoop f (gscanStep ch rest g).2.1 (gscanStep ch rest g).2.2 with ⟨pairs, fin⟩
      rw [hE] at hrec
      simp only at hrec
      simp only [gscanLoop, hE]
      cases hts : (scanStep ch rest g.st).1 with
      | none =>
        have hts2 : (gscanStep ch rest g).1 = none := hts
        rw [hts2]
        simpa using hrec
      | some t =>
        have hts2 : (gscanStep ch rest g).1 = some t := hts
        rw [hts2]
        simp only [Option.toList_some, List.map_cons, List.map_nil, List.singleton_append]
        refine List.chain'_cons'.mpr ⟨?_, hrec⟩
        intro q hq
        have hqmem : q ∈ pairs := List.mem_of_mem_head? hq
        have helem := gscanLoop_elem f (gscanStep ch rest g).2.1 (gscanStep ch rest g).2.2 hlen q
          (by rw [hE]; exact hqmem)
        have hnl : (gscanStep ch rest g).2.2.nl = g.nl + (if ch = '\n' then 1 else 0) := rfl
        have hline2 : (gscanStep ch rest g).2.2.st.line =
            g.st.line + (if ch = '\n' then 1 else 0) := scanStep_final_line ch rest g.st
        rw [hnl, hline2] at helem
        have hline := scanStep_token_line ch rest g.st t hts
        refine ⟨?_, ?_⟩
        · simp only
          omega
        · simp only [hline]
          omega

theorem gscanLoop_string_count : ∀ (fuel : Nat) (src : List Char) (g : GScanSt),
    src.length < fuel →
    2 * ((gscanLoop fuel src g).1.countP (fun p => isStringTok p.1.token_type)) +
        (if (gscanLoop fuel src g).2.st.inString then 1 else 0) + g.qt =
      (gscanLoop fuel src g).2.qt + (if g.st.inString then 1 else 0) := by
  intro fuel
  induction fuel with
  | zero => intro src g h; exact absurd h (Nat.not_lt_zero _)
  | succ f ih =>
    intro src g h
    cases src with
    | nil =>
      by_cases hb : g.st.inString = true <;>
        (simp [gscanLoop, hb, isStringTok]; try omega)
    | cons ch rest =>
      have hlen : (scanStep ch rest g.st).2.1.length < f := by
        have h1 := scanStep_rest_length ch rest g.st
        simp only [List.length_cons] at h
        omega
      have hrec := ih (gscanStep ch rest g).2.1 (gscanStep ch rest g).2.2 hlen
      rcases hE : gscanLoop f (gscanStep ch rest g).2.1 (gscanStep ch rest g).2.2 with ⟨pairs, fin⟩
      rw [hE] at hrec
      simp only at hrec
      have hstep := scanStep_string_accounting ch rest g.st
      have hq2 : (gscanStep ch rest g).2.2.qt = g.qt + (if ch = '"' then 1 else 0) := rfl
      have hb2 : (gscanStep ch rest g).2.2.st = (scanStep ch rest g.st).2.2 := rfl
      rw [hq2, hb2] at hrec
      simp only [gscanLoop, hE, List.countP_append, List.countP_map]
      have hcomp :
          ((fun p : Token × Nat => isStringTok p.1.token_type) ∘ fun t : Token => (t, g.nl)) =
            (fun t : Token => isStringTok t.token_type) := rfl
      rw [hcomp]
      have hts : (gscanStep ch rest g).1.toList = (scanStep ch rest g.st).1.toList := rfl
      rw [hts]
      omega

theorem dropWhile_cons_head (p : Char → Bool) (l : List Char) (y : Char) (t : List Char)
    (h : l.dropWhile p = y :: t) : p y = false := by
  have h2 := List.head?_dropWhile_not p l
  rw [h] at h2
  simpa using h2

theorem takeWhile_all (p : Char → Bool) : ∀ (l : List Char),
    (∀ x ∈ l, p x = true) → l.takeWhile p = l ∧ l.dropWhile p = [] := by
  intro l
  induction l with
  | nil => intro _; exact ⟨rfl, rfl⟩
  | cons c cs ih =>
    intro h
    have hc : p c = true := h c (List.mem_cons_self c cs)
    have hcs := ih (fun x hx => h x (List.mem_cons_of_mem c hx))
    rw [List.takeWhile_cons, List.dropWhile_cons]
    simp only [hc, if_true]
    exact ⟨by rw [hcs.1], hcs.2⟩

theorem takeWhile_all_of_append (p : Char → Bool) (xs : List Char) (y : Char) (ys : List Char)
    (hx : ∀ x ∈ xs, p x = true) (hy : p y = false) :
    (xs ++ y :: ys).takeWhile p = xs ∧ (xs ++ y :: ys).dropWhile p = y :: ys := by
  induction xs with
  | nil =>
    rw [List.nil_append, List.takeWhile_cons, List.dropWhile_cons]
    simp [hy]
  | cons c cs ih =>
    have hc : p c = true := hx c (List.mem_cons_self c cs)
    have := ih (fun x h => hx x (List.mem_cons_of_mem c h))
    rw [List.cons_append, List.takeWhile_cons, List.dropWhile_cons]
    simp only [hc, if_true]
    exact ⟨by rw [this.1], this.2⟩

theorem keywordLookup_isSome (s : List Char) :
    (keywordLookup s).isSome = true ↔ s ∈ reservedSpellings := by
  constructor
  · intro h
    unfold keywordLookup at h
    by_cases h0 : s = ("and").toList
    · subst h0
      decide
    · rw [if_neg h0] at h
      by_cases h1 : s = ("class").toList
      · subst h1
        decide
      · rw [if_neg h1] at h
        by_cases h2 : s = ("else").toList
        · subst h2
          decide
        · rw [if_neg h2] at h
          by_cases h3 : s = ("false").toList
          · subst h3
            decide
          · rw [if_neg h3] at h
            by_cases h4 : s = ("for").toList
            · subst h4
              decide
            · rw [if_neg h4] at h
              by_cases h5 : s = ("fun").toList
              · subst h5
                decide
              · rw [if_neg h5] at h
                by_cases h6 : s = ("if").toList
                · subst h6
                  decide
                · rw [if_neg h6] at h
                  by_cases h7 : s = ("nil").toList
                  · subst h7
                    decide
                  · rw [if_neg h7] at h
                    by_cases h8 : s = ("or").toList
                    · subst h8
                      decide
                    · rw [if_neg h8] at h
                      by_cases h9 : s = ("print").toList
                      · subst h9
                        decide
                      · rw [if_neg h9] at h
                        by_cases h10 : s = ("return").toList
                        · subst h10
                          decide
                        · rw [if_neg h10] at h
                          by_cases h11 : s = ("super").toList
                          · subst h11
                            decide
                          · rw [if_neg h11] at h
                            by_cases h12 : s = ("this").toList
                            · subst h12
                              decide
                            · rw [if_neg h12] at h
                              by_cases h13 : s = ("true").toList
                              · subst h13
                                decide
                              · rw [if_neg h13] at h
                                by_cases h14 : s = ("var").toList
                                · subst h14
                                  decide
                                · rw [if_neg h14] at h
                                  by_cases h15 : s = ("while").toList
                                  · subst h15
                                    decide
                                  · rw [if_neg h15] at h
                                    exact absurd h (by decide)
  · intro h
    simp only [reservedSpellings, List.mem_cons, List.not_mem_nil, or_false] at h
    rcases h with h | h | h | h | h | h | h | h | h | h | h | h | h | h | h | h <;>
      (subst h; decide)

theorem map_fst_pairs (l : List Token) (n : Nat) :
    (l.map (fun t => (t, n))).map Prod.fst = l := by
  rw [List.map_map]
  have : (Prod.fst ∘ fun t : Token => (t, n)) = id := rfl
  rw [this, List.map_id]

theorem option_toList_length {α : Type} (o : Option α) : o.toList.length ≤ 1 := by
  cases o <;> simp

theorem scanLoop_fuel_independent : ∀ (f1 f2 : Nat) (src : List Char) (st : ScanSt),
    src.length < f1 → src.length < f2 → scanLoop f1 src st = scanLoop f2 src st := by
  intro f1
  induction f1 with
  | zero => intro f2 src st h1 _; exact absurd h1 (Nat.not_lt_zero _)
  | succ f ih =>
    intro f2 src st h1 h2
    cases src with
    | nil => cases f2 with
      | zero => exact absurd h2 (Nat.not_lt_zero _)
      | succ f2' => rfl
    | cons ch rest =>
      cases f2 with
      | zero => exact absurd h2 (Nat.not_lt_zero _)
      | succ f2' =>
        have hst := scanStep_rest_length ch rest st
        simp only [List.length_cons] at h1 h2
        simp only [scanLoop]
        rw [ih f2' (scanStep ch rest st).2.1 (scanStep ch rest st).2.2 (by omega) (by omega)]

theorem scan_number_shape (c : Char) (l : List Char) (hc : c.isDigit = true) :
    numberShape (scan_number c l).1 = true := by
  have htw : ∀ x ∈ l.takeWhile Char.isDigit, Char.isDigit x = true :=
    fun x hx => List.mem_takeWhile_imp hx
  unfold scan_number
  split
  · rename_i next after heq
    split
    · rename_i hnext
      have htw2 : ∀ x ∈ (next :: after).takeWhile Char.isDigit, Char.isDigit x = true :=
        fun x hx => List.mem_takeWhile_imp hx
      have hall : ∀ x ∈ c :: l.takeWhile Char.isDigit, Char.isDigit x = true := by
        intro x hx
        rcases List.mem_cons.mp hx with rfl | hx2
        · exact hc
        · exact htw x hx2
      have hsplit := takeWhile_all_of_append Char.isDigit (c :: l.takeWhile Char.isDigit) '.'
        ((next :: after).takeWhile Char.isDigit) hall (by decide)
      have hne : ((next :: after).takeWhile Char.isDigit) ≠ [] := by
        rw [List.takeWhile_cons, if_pos hnext]
        exact List.cons_ne_nil _ _
      unfold numberShape
      dsimp only
      simp only [hsplit.1, hsplit.2]
      simp [hne, List.all_eq_true, htw2]
    · have := takeWhile_all Char.isDigit (c :: l.takeWhile Char.isDigit) (by
        intro x hx
        rcases List.mem_cons.mp hx with rfl | hx2
        · exact hc
        · exact htw x hx2)
      unfold numberShape
      dsimp only
      simp only [this.1, this.2]
      simp
  · have := takeWhile_all Char.isDigit (c :: l.takeWhile Char.isDigit) (by
      intro x hx
      rcases List.mem_cons.mp hx with rfl | hx2
      · exact hc
      · exact htw x hx2)
    unfold numberShape
    dsimp only
    simp only [this.1, this.2]
    simp

theorem digit_ne_plus {c : Char} (h : c.isDigit = true) : c ≠ '+' := fun heq => by
  rw [heq] at h
  exact absurd h (by decide)

theorem digit_ne_minus {c : Char} (h : c.isDigit = true) : c ≠ '-' := fun heq => by
  rw [heq] at h
  exact absurd h (by decide)

theorem stripSign_of_head_digit (c : Char) (l : List Char) (h : c.isDigit = true) :
    stripSign (c :: l) = c :: l := by
  have h1 : c ≠ '+' := digit_ne_plus h
  have h2 : c ≠ '-' := digit_ne_minus h
  unfold stripSign
  split
  · rename_i t heq
    rw [List.cons.injEq] at heq
    exact absurd heq.1 h1
  · rename_i t heq
    rw [List.cons.injEq] at heq
    exact absurd heq.1 h2
  · rfl

theorem numberShape_parsesAsF64 (v : List Char) (h : numberShape v = true) :
    parsesAsF64 v = true := by
  unfold numberShape at h
  dsimp only at h
  split at h
  · rename_i heq
    simp only [Bool.not_eq_true', List.isEmpty_eq_false] at h
    rcases htw : v.takeWhile Char.isDigit with _ | ⟨c0, tw0⟩
    · exact absurd htw h
    · have hc0 : c0.isDigit = true := List.mem_takeWhile_imp (htw ▸ List.mem_cons_self c0 tw0)
      have hv : v = c0 :: (tw0 ++ v.dropWhile Char.isDigit) := by
        have hh := List.takeWhile_append_dropWhile (p := Char.isDigit) (l := v)
        rw [htw, List.cons_append] at hh
        exact hh.symm
      have hstrip : stripSign v = v := by
        rw [hv]
        exact stripSign_of_head_digit _ _ hc0
      unfold parsesAsF64
      dsimp only
      rw [hstrip]
      have hb : acceptNumberBody v = true := by
        unfold acceptNumberBody
        dsimp only
        rw [heq, htw]
        simp [acceptExp]
      simp [hb]
  · rename_i frac heq
    simp only [Bool.and_eq_true, Bool.not_eq_true', List.isEmpty_eq_false] at h
    obtain ⟨⟨hd1, hfrac⟩, hall⟩ := h
    rcases htw : v.takeWhile Char.isDigit with _ | ⟨c0, tw0⟩
    · exact absurd htw hd1
    · have hc0 : c0.isDigit = true := List.mem_takeWhile_imp (htw ▸ List.mem_cons_self c0 tw0)
      have hv : v = c0 :: (tw0 ++ v.dropWhile Char.isDigit) := by
        have hh := List.takeWhile_append_dropWhile (p := Char.isDigit) (l := v)
        rw [htw, List.cons_append] at hh
        exact hh.symm
      have hstrip : stripSign v = v := by
        rw [hv]
        exact stripSign_of_head_digit _ _ hc0
      unfold parsesAsF64
      dsimp only
      rw [hstrip]
      have hfall : ∀ x ∈ frac, Char.isDigit x = true := by
        intro x hx
        exact List.all_eq_true.mp hall x hx
      have hfr := takeWhile_all Char.isDigit frac hfall
      have hb : acceptNumberBody v = true := by
        unfold acceptNumberBody
        dsimp only
        rw [heq, htw]
        simp +decide [acceptExp, hfrac, hfr.1, hfr.2]
      simp [hb]
  · exact absurd h (by decide)

theorem scanStep_quote (rest : List Char) (st : ScanSt) :
    scanStep '"' rest st =
      (if st.inString then
        (some ⟨.String st.buf, st.line⟩, rest, { st with inString := false, buf := [] })
       else (none, rest, { st with inString := true })) := by
  cases hs : st.inString <;> simp +decide [scanStep, hs]

theorem scanLoop_string_run : ∀ (content rest : List Char) (st : ScanSt) (fuel : Nat),
    (∀ c ∈ content, isStringContentChar c = true) → st.inString = true →
    scanLoop (content.length + 1 + fuel) (content ++ '"' :: rest) st =
      ⟨.String (st.buf ++ content), st.line⟩ :: scanLoop fuel rest ⟨st.line, false, []⟩ := by
  intro content
  induction content with
  | nil =>
    intro rest st fuel hc hs
    have hfe : ([] : List Char).length + 1 + fuel = fuel + 1 := by simp; omega
    rw [hfe, List.nil_append]
    simp only [scanLoop]
    rw [scanStep_quote, if_pos hs]
    simp
  | cons c content2 ih =>
    intro rest st fuel hc hs
    have hcc : isStringContentChar c = true := hc c (List.mem_cons_self c content2)
    have hfe : (c :: content2).length + 1 + fuel = (content2.length + 1 + fuel) + 1 := by
      simp only [List.length_cons]
      omega
    rw [hfe, List.cons_append]
    simp only [scanLoop]
    rw [scanStep_string_content c _ st hcc hs]
    have hih := ih rest { st with buf := st.buf ++ [c] } fuel
      (fun x hx => hc x (List.mem_cons_of_mem c hx)) hs
    simp only at hih
    simp only [Option.toList_none, List.nil_append]
    rw [hih]
    simp [List.append_assoc]

theorem scanLoop_number_shape : ∀ (fuel : Nat) (src : List Char) (st : ScanSt),
    src.length < fuel →
    ∀ t ∈ scanLoop fuel src st, ∀ v, t.token_type = .Number v →
      numberShape v = true ∧ parsesAsF64 v = true := by
  intro fuel
  induction fuel with
  | zero => intro src st h; exact absurd h (Nat.not_lt_zero _)
  | succ f ih =>
    intro src st h
    cases src with
    | nil =>
      intro t ht v hv
      simp only [scanLoop] at ht
      rcases List.mem_append.mp ht with ht1 | ht2
      · by_cases hb : st.inString = true
        · rw [if_pos hb] at ht1
          simp only [List.mem_singleton] at ht1
          subst ht1
          exact absurd hv (by simp)
        · rw [if_neg hb] at ht1
          exact absurd ht1 (List.not_mem_nil t)
      · simp only [List.mem_singleton] at ht2
        subst ht2
        exact absurd hv (by simp)
    | cons ch rest =>
      intro t ht v hv
      have hlen : (scanStep ch rest st).2.1.length < f := by
        have h1 := scanStep_rest_length ch rest st
        simp only [List.length_cons] at h
        omega
      simp only [scanLoop] at ht
      rcases List.mem_append.mp ht with ht1 | ht2
      · have hsome : (scanStep ch rest st).1 = some t := by
          have h2 := Option.mem_toList.mp ht1
          simpa [Option.mem_def] using h2
        obtain ⟨hdig, hveq⟩ := scanStep_number_src ch rest st t hsome v hv
        subst hveq
        exact ⟨scan_number_shape ch rest hdig,
          numberShape_parsesAsF64 _ (scan_number_shape ch rest hdig)⟩
      · exact ih (scanStep ch rest st).2.1 (scanStep ch rest st).2.2 hlen t ht2 v hv

/-- C1: for every input string, including the empty string, `scan_tokens`
returns a non-empty token sequence whose last element is an `Eof` token, and
`Eof` occurs exactly once, only at the last position. -/
theorem C1_eof_terminated (s : String) :
    ∃ pre L, scan_tokens s = pre ++ [⟨.Eof, L⟩] ∧ ∀ t ∈ pre, t.token_type ≠ .Eof := by
  obtain ⟨pre, hpre, hnone⟩ := gscanLoop_structure (s.toList.length + 1) s.toList
    ⟨⟨1, false, []⟩, 0, 0⟩ (Nat.lt_succ_self _)
  have hmap := gscanLoop_map_fst (s.toList.length + 1) s.toList
    ⟨⟨1, false, []⟩, 0, 0⟩ (Nat.lt_succ_self _)
  set G := gscanLoop (s.toList.length + 1) s.toList ⟨⟨1, false, []⟩, 0, 0⟩ with hG
  refine ⟨pre.map Prod.fst ++
      (if G.2.st.inString then [⟨.Error '"' G.2.st.line, G.2.st.line⟩] else []),
    G.2.st.line, ?_, ?_⟩
  · have hscan : scan_tokens s = G.1.map Prod.fst := hmap.symm
    rw [hscan, hpre]
    rw [List.map_append, map_fst_pairs]
    by_cases hb : G.2.st.inString = true <;> simp [hb, List.append_assoc]
  · intro t ht
    rcases List.mem_append.mp ht with ht1 | ht2
    · rcases List.mem_map.mp ht1 with ⟨p, hp, rfl⟩
      exact (hnone p hp).1
    · by_cases hb : G.2.st.inString = true
      · rw [if_pos hb] at ht2
        simp only [List.mem_singleton] at ht2
        subst ht2
        simp
      · rw [if_neg hb] at ht2
        exact absurd ht2 (List.not_mem_nil t)

/-- C3: token line numbers are monotonically non-decreasing, and each token's
line exceeds the previous token's line by exactly the number of newline
characters consumed between the two: in the instrumented scan, whose token
list projects onto `scan_tokens`, every token's line equals one plus the
number of newlines consumed before it was pushed, the newline counts are
non-decreasing along the sequence with the line difference of adjacent tokens
equal to the difference of their newline counts, and the final newline count
is the number of newlines in the whole source. -/
theorem C3_line_numbers (s : String) :
    List.Chain' (fun a b : Token => a.line ≤ b.line) (scan_tokens s) ∧
    (gscan s).1.map Prod.fst = scan_tokens s ∧
    (∀ p ∈ (gscan s).1, p.1.line = p.2 + 1) ∧
    List.Chain' (fun p q : Token × Nat => p.2 ≤ q.2 ∧ q.1.line + p.2 = p.1.line + q.2)
      (gscan s).1 ∧
    (gscan s).2.nl = s.toList.count '\n' := by
  have hmap := gscanLoop_map_fst (s.toList.length + 1) s.toList
    ⟨⟨1, false, []⟩, 0, 0⟩ (Nat.lt_succ_self _)
  have helem := gscanLoop_elem (s.toList.length + 1) s.toList
    ⟨⟨1, false, []⟩, 0, 0⟩ (Nat.lt_succ_self _)
  have hchain := gscanLoop_chain (s.toList.length + 1) s.toList
    ⟨⟨1, false, []⟩, 0, 0⟩ (Nat.lt_succ_self _)
  have hfin := gscanLoop_final (s.toList.length + 1) s.toList
    ⟨⟨1, false, []⟩, 0, 0⟩ (Nat.lt_succ_self _)
  have hgE : gscanLoop (s.toList.length + 1) s.toList ⟨⟨1, false, []⟩, 0, 0⟩ = gscan s := rfl
  rw [hgE] at helem hchain hfin
  simp only at helem hfin
  refine ⟨?_, hmap, ?_, hchain, ?_⟩
  · have hscan : scan_tokens s = (gscan s).1.map Prod.fst := hmap.symm
    rw [hscan, List.chain'_map]
    exact hchain.imp (fun a b hab => by omega)
  · intro p hp
    have := helem p hp
    omega
  · have := hfin.2.2.1
    omega

/-- C4: when a string literal is opened but never closed (the scan ends with
`in_string` still set), exactly one unterminated-string `Error` token is
emitted, carrying the sentinel quote character and tagged with the line where
input ended (one plus the total newline count), placed immediately before the
final `Eof`; and since the quote-toggle count is `2k + 1`, exactly `k`
`String` tokens were emitted — none for the unterminated literal. -/
theorem C4_unterminated_string (s : String) (h : (gscan s).2.st.inString = true) :
    (∃ pre, scan_tokens s =
        pre ++ [⟨.Error '"' (gscan s).2.st.line, (gscan s).2.st.line⟩,
                ⟨.Eof, (gscan s).2.st.line⟩] ∧
      ∀ t ∈ pre, ∀ m, t.token_type ≠ .Error '"' m) ∧
    (gscan s).2.st.line = 1 + s.toList.count '\n' ∧
    2 * (scan_tokens s).countP (fun t => isStringTok t.token_type) + 1 = (gscan s).2.qt := by
  obtain ⟨pre, hpre, hnone⟩ := gscanLoop_structure (s.toList.length + 1) s.toList
    ⟨⟨1, false, []⟩, 0, 0⟩ (Nat.lt_succ_self _)
  have hmap := gscanLoop_map_fst (s.toList.length + 1) s.toList
    ⟨⟨1, false, []⟩, 0, 0⟩ (Nat.lt_succ_self _)
  have hfin := gscanLoop_final (s.toList.length + 1) s.toList
    ⟨⟨1, false, []⟩, 0, 0⟩ (Nat.lt_succ_self _)
  have hcnt := gscanLoop_string_count (s.toList.length + 1) s.toList
    ⟨⟨1, false, []⟩, 0, 0⟩ (Nat.lt_succ_self _)
  have hgE : gscan s = gscanLoop (s.toList.length + 1) s.toList ⟨⟨1, false, []⟩, 0, 0⟩ := rfl
  rw [← hgE] at hpre hmap hfin hcnt
  simp only at hfin hcnt
  refine ⟨⟨pre.map Prod.fst, ?_, ?_⟩, by omega, ?_⟩
  · have hscan : scan_tokens s = (gscan s).1.map Prod.fst := hmap.symm
    rw [hscan, hpre, h]
    rw [List.map_append, map_fst_pairs]
    simp
  · intro t ht
    rcases List.mem_map.mp ht with ⟨p, hp, rfl⟩
    exact (hnone p hp).2
  · have hscan : scan_tokens s = (gscan s).1.map Prod.fst := hmap.symm
    rw [hscan, List.countP_map]
    have hco : ((fun t : Token => isStringTok t.token_type) ∘ Prod.fst) =
        (fun p : Token × Nat => isStringTok p.1.token_type) := rfl
    rw [hco]
    simp only [h, if_true] at hcnt
    simp at hcnt
    omega

/-- C4 witness: scanning the unterminated literal `"abc` produces exactly the
unterminated-string error followed by `Eof`. -/
theorem C4_unterminated_string_witness :
    (∃ pre, scan_tokens ("\"abc") =
        pre ++ [⟨.Error '"' (gscan ("\"abc")).2.st.line, (gscan ("\"abc")).2.st.line⟩,
                ⟨.Eof, (gscan ("\"abc")).2.st.line⟩] ∧
      ∀ t ∈ pre, ∀ m, t.token_type ≠ .Error '"' m) ∧
    (gscan ("\"abc")).2.st.line = 1 + ("\"abc").toList.count '\n' ∧
    2 * (scan_tokens ("\"abc")).countP (fun t => isStringTok t.token_type) + 1 =
      (gscan ("\"abc")).2.qt :=
  C4_unterminated_string ("\"abc") (by decide)

theorem scan_number_characterization (c : Char) (l : List Char) :
    (scan_number c l).1 ++ (scan_number c l).2 = c :: l ∧
    ∃ d1 d2 : List Char,
      (∀ x ∈ d1, x.isDigit = true) ∧ (∀ x ∈ d2, x.isDigit = true) ∧
      (((scan_number c l).1 = c :: d1 ∧
          (∀ y t, (scan_number c l).2 = y :: t → y.isDigit = false) ∧
          (∀ y t, (scan_number c l).2 = '.' :: y :: t → y.isDigit = false)) ∨
        ((scan_number c l).1 = (c :: d1) ++ '.' :: d2 ∧ d2 ≠ [] ∧
          (∀ y t, (scan_number c l).2 = y :: t → y.isDigit = false))) := by
  have htw : ∀ x ∈ l.takeWhile Char.isDigit, Char.isDigit x = true :=
    fun x hx => List.mem_takeWhile_imp hx
  have happ := List.takeWhile_append_dropWhile (p := Char.isDigit) (l := l)
  unfold scan_number
  split
  · rename_i next after heq
    split
    · rename_i hnext
      have htw2 : ∀ x ∈ (next :: after).takeWhile Char.isDigit, Char.isDigit x = true :=
        fun x hx => List.mem_takeWhile_imp hx
      have happ2 := List.takeWhile_append_dropWhile (p := Char.isDigit) (l := next :: after)
      constructor
      · dsimp only
        simp only [List.append_assoc, List.cons_append]
        rw [happ2, ← heq, happ]
      · refine ⟨l.takeWhile Char.isDigit, (next :: after).takeWhile Char.isDigit,
          htw, htw2, Or.inr ⟨rfl, ?_, ?_⟩⟩
        · rw [List.takeWhile_cons, if_pos hnext]
          exact List.cons_ne_nil _ _
        · intro y t hyt
          exact dropWhile_cons_head Char.isDigit (next :: after) y t hyt
    · rename_i hnext
      constructor
      · dsimp only
        rw [List.cons_append, ← heq, happ]
      · refine ⟨l.takeWhile Char.isDigit, [], htw, by simp, Or.inl ⟨rfl, ?_, ?_⟩⟩
        · intro y t hyt
          dsimp only at hyt
          rw [List.cons.injEq] at hyt
          rw [← hyt.1]
          decide
        · intro y t hyt
          dsimp only at hyt
          rw [List.cons.injEq] at hyt
          have h2 := hyt.2
          rw [List.cons.injEq] at h2
          rw [← h2.1]
          simpa using hnext
  · rename_i hshape
    constructor
    · dsimp only
      rw [List.cons_append, happ]
    · refine ⟨l.takeWhile Char.isDigit, [], htw, by simp, Or.inl ⟨rfl, ?_, ?_⟩⟩
      · intro y t hyt
        exact dropWhile_cons_head Char.isDigit l y t hyt
      · intro y t hyt
        dsimp only at hyt
        exact (hshape y t hyt).elim

/-- C5: number scanning consumes a maximal digit run, then a dot plus a
further maximal digit run only when the character after the dot is a digit; a
dot not followed by a digit is left unconsumed (it later becomes a `Dot`
token), and `"123."` scans to a `Number` token for `123` followed by `Dot`. -/
theorem C5_number_scanning :
    (∀ (c : Char) (l : List Char),
      (scan_number c l).1 ++ (scan_number c l).2 = c :: l ∧
      ∃ d1 d2 : List Char,
        (∀ x ∈ d1, x.isDigit = true) ∧ (∀ x ∈ d2, x.isDigit = true) ∧
        (((scan_number c l).1 = c :: d1 ∧
            (∀ y t, (scan_number c l).2 = y :: t → y.isDigit = false) ∧
            (∀ y t, (scan_number c l).2 = '.' :: y :: t → y.isDigit = false)) ∨
          ((scan_number c l).1 = (c :: d1) ++ '.' :: d2 ∧ d2 ≠ [] ∧
            (∀ y t, (scan_number c l).2 = y :: t → y.isDigit = false)))) ∧
    (∀ (ch : Char) (rest : List Char) (st : ScanSt), ch.isDigit = true →
      scanStep ch rest st =
        (some ⟨.Number (scan_number ch rest).1, st.line⟩, (scan_number ch rest).2, st)) ∧
    scan_tokens ("123.") = [⟨.Number ("123").toList, 1⟩, ⟨.Dot, 1⟩, ⟨.Eof, 1⟩] :=
  ⟨scan_number_characterization, scanStep_digit, by decide⟩

/-- C5 witness: the digit-dispatch arm at the concrete digit `1`. -/
theorem C5_number_scanning_witness :
    scanStep '1' (("23.").toList) ⟨1, false, []⟩ =
      (some ⟨.Number (scan_number '1' (("23.").toList)).1, 1⟩,
       (scan_number '1' (("23.").toList)).2, ⟨1, false, []⟩) :=
  C5_number_scanning.2.1 '1' (("23.").toList) ⟨1, false, []⟩ (by decide)

/-- C6: an identifier starting with an ASCII letter consumes the maximal run
of ASCII letters, digits and underscores, then compares the whole run
case-sensitively against the sixteen reserved words, yielding `Reserved` on a
match and `Identifier` otherwise; `"classroom"` is one `Identifier`, and the
comparison is case-sensitive (`"AND"` is an `Identifier`, not `Reserved`). -/
theorem C6_identifier_scanning :
    (∀ (c : Char) (l : List Char),
      ∃ run,
        (∀ x ∈ run, isIdentChar x = true) ∧
        (c :: run) ++ (identifier c l).2 = c :: l ∧
        (∀ y t, (identifier c l).2 = y :: t → isIdentChar y = false) ∧
        (∀ w, keywordLookup (c :: run) = some w → (identifier c l).1 = .Reserved w) ∧
        (keywordLookup (c :: run) = none → (identifier c l).1 = .Identifier (c :: run))) ∧
    (∀ sp : List Char, (keywordLookup sp).isSome = true ↔ sp ∈ reservedSpellings) ∧
    (∀ (ch : Char) (rest : List Char) (st : ScanSt), ch.isAlpha = true →
      st.inString = false →
      scanStep ch rest st =
        (some ⟨(identifier ch rest).1, st.line⟩, (identifier ch rest).2, st)) ∧
    scan_tokens ("classroom") = [⟨.Identifier ("classroom").toList, 1⟩, ⟨.Eof, 1⟩] ∧
    scan_tokens ("AND") = [⟨.Identifier ("AND").toList, 1⟩, ⟨.Eof, 1⟩] := by
  refine ⟨?_, keywordLookup_isSome, scanStep_alpha, by decide, by decide⟩
  intro c l
  refine ⟨l.takeWhile isIdentChar, fun x hx => List.mem_takeWhile_imp hx, ?_, ?_, ?_, ?_⟩
  · rw [identifier_rest_snd, List.cons_append, List.takeWhile_append_dropWhile]
  · intro y t hyt
    rw [identifier_rest_snd] at hyt
    exact dropWhile_cons_head isIdentChar l y t hyt
  · intro w hw
    simp [identifier, hw]
  · intro hw
    simp [identifier, hw]

/-- C6 witness: the letter-dispatch arm at the concrete letter `c` of
`classroom`. -/
theorem C6_identifier_scanning_witness :
    scanStep 'c' (("lassroom").toList) ⟨1, false, []⟩ =
      (some ⟨(identifier 'c' (("lassroom").toList)).1, 1⟩,
       (identifier 'c' (("lassroom").toList)).2, ⟨1, false, []⟩) :=
  C6_identifier_scanning.2.2.1 'c' (("lassroom").toList) ⟨1, false, []⟩ (by decide) rfl

theorem scanStep_eq_arm (rest : List Char) (st : ScanSt) :
    scanStep '=' rest st =
      ((if (match_next '=' rest).1 then some ⟨.DoubleEquals, st.line⟩
        else some ⟨.Equals, st.line⟩), (match_next '=' rest).2, st) := rfl

theorem scanStep_gt_arm (rest : List Char) (st : ScanSt) :
    scanStep '>' rest st =
      ((if (match_next '=' rest).1 then some ⟨.GreaterEquals, st.line⟩
        else some ⟨.Greater, st.line⟩), (match_next '=' rest).2, st) := rfl

theorem scanStep_lt_arm (rest : List Char) (st : ScanSt) :
    scanStep '<' rest st =
      ((if (match_next '=' rest).1 then some ⟨.LessThanEquals, st.line⟩
        else some ⟨.LessThan, st.line⟩), (match_next '=' rest).2, st) := rfl

theorem scanStep_bang_arm (rest : List Char) (st : ScanSt) :
    scanStep '!' rest st =
      ((if (match_next '=' rest).1 then some ⟨.BangEquals, st.line⟩
        else some ⟨.Bang, st.line⟩), (match_next '=' rest).2, st) := rfl

/-- C7: for `=`, `>`, `<`, `!`, if the next character is `=` both characters
are consumed and the two-character token is emitted; otherwise, including at
end of input, the one-character token is emitted; `"!="` is one `BangEquals`
and `"!"` one `Bang`. -/
theorem C7_operator_lookahead :
    (∀ (r2 : List Char) (st : ScanSt),
      scanStep '=' ('=' :: r2) st = (some ⟨.DoubleEquals, st.line⟩, r2, st) ∧
      scanStep '>' ('=' :: r2) st = (some ⟨.GreaterEquals, st.line⟩, r2, st) ∧
      scanStep '<' ('=' :: r2) st = (some ⟨.LessThanEquals, st.line⟩, r2, st) ∧
      scanStep '!' ('=' :: r2) st = (some ⟨.BangEquals, st.line⟩, r2, st)) ∧
    (∀ (rest : List Char) (st : ScanSt), (∀ r2, rest ≠ '=' :: r2) →
      scanStep '=' rest st = (some ⟨.Equals, st.line⟩, rest, st) ∧
      scanStep '>' rest st = (some ⟨.Greater, st.line⟩, rest, st) ∧
      scanStep '<' rest st = (some ⟨.LessThan, st.line⟩, rest, st) ∧
      scanStep '!' rest st = (some ⟨.Bang, st.line⟩, rest, st)) ∧
    scan_tokens ("!=") = [⟨.BangEquals, 1⟩, ⟨.Eof, 1⟩] ∧
    scan_tokens ("!") = [⟨.Bang, 1⟩, ⟨.Eof, 1⟩] := by
  have hm : ∀ rest : List Char, (∀ r2, rest ≠ '=' :: r2) →
      match_next '=' rest = (false, rest) := by
    intro rest hne
    cases rest with
    | nil => rfl
    | cons c r =>
      have hc : c ≠ '=' := fun hh => hne r (by rw [hh])
      exact match_next_neg '=' c r hc
  refine ⟨?_, ?_, by decide, by decide⟩
  · intro r2 st
    rw [scanStep_eq_arm, scanStep_gt_arm, scanStep_lt_arm, scanStep_bang_arm,
      match_next_pos]
    simp
  · intro rest st hne
    rw [scanStep_eq_arm, scanStep_gt_arm, scanStep_lt_arm, scanStep_bang_arm, hm rest hne]
    simp

/-- C7 witness: lookahead at the concrete inputs `'='::[]` and `[]`. -/
theorem C7_operator_lookahead_witness :
    (scanStep '=' ['='] ⟨1, false, []⟩ = (some ⟨.DoubleEquals, 1⟩, [], ⟨1, false, []⟩) ∧
      scanStep '>' ['='] ⟨1, false, []⟩ = (some ⟨.GreaterEquals, 1⟩, [], ⟨1, false, []⟩) ∧
      scanStep '<' ['='] ⟨1, false, []⟩ = (some ⟨.LessThanEquals, 1⟩, [], ⟨1, false, []⟩) ∧
      scanStep '!' ['='] ⟨1, false, []⟩ = (some ⟨.BangEquals, 1⟩, [], ⟨1, false, []⟩)) ∧
    (scanStep '=' [] ⟨1, false, []⟩ = (some ⟨.Equals, 1⟩, [], ⟨1, false, []⟩) ∧
      scanStep '>' [] ⟨1, false, []⟩ = (some ⟨.Greater, 1⟩, [], ⟨1, false, []⟩) ∧
      scanStep '<' [] ⟨1, false, []⟩ = (some ⟨.LessThan, 1⟩, [], ⟨1, false, []⟩) ∧
      scanStep '!' [] ⟨1, false, []⟩ = (some ⟨.Bang, 1⟩, [], ⟨1, false, []⟩)) :=
  ⟨C7_operator_lookahead.1 [] ⟨1, false, []⟩,
   C7_operator_lookahead.2.1 [] ⟨1, false, []⟩ (fun r2 h => List.noConfusion h)⟩

theorem scanLoop_ne_nil : ∀ (fuel : Nat) (src : List Char) (st : ScanSt),
    src.length < fuel → scanLoop fuel src st ≠ [] := by
  intro fuel
  induction fuel with
  | zero => intro src st h; exact absurd h (Nat.not_lt_zero _)
  | succ f ih =>
    intro src st h
    cases src with
    | nil => cases st.inString <;> simp [scanLoop]
    | cons ch rest =>
      have hlen : (scanStep ch rest st).2.1.length < f := by
        have := scanStep_rest_length ch rest st
        simp only [List.length_cons] at h
        omega
      simp only [scanLoop]
      intro hcontra
      rcases List.append_eq_nil.mp hcontra with ⟨_, h2⟩
      exact ih _ _ hlen h2

/-- C8: the scan is total and makes progress — the loop result does not
depend on the fuel bound once it exceeds the input length (so the fuel-free
function is well defined and terminates), each step emits at most one token,
strictly consumes at least one character, and never reads outside its own
lookahead (the remaining input is a suffix of what followed the consumed
character); `scan_tokens` yields a token sequence on every input. -/
theorem C8_termination_progress :
    (∀ (f1 f2 : Nat) (src : List Char) (st : ScanSt),
      src.length < f1 → src.length < f2 → scanLoop f1 src st = scanLoop f2 src st) ∧
    (∀ (ch : Char) (rest : List Char) (st : ScanSt),
      (scanStep ch rest st).1.toList.length ≤ 1 ∧
      (scanStep ch rest st).2.1.length < (ch :: rest).length ∧
      (scanStep ch rest st).2.1 <:+ rest) ∧
    (∀ s : String, scan_tokens s ≠ []) := by
  refine ⟨scanLoop_fuel_independent, ?_, ?_⟩
  · intro ch rest st
    refine ⟨option_toList_length _, ?_, scanStep_rest_suffix ch rest st⟩
    have := scanStep_rest_length ch rest st
    simp only [List.length_cons]
    omega
  · intro s
    exact scanLoop_ne_nil (s.toList.length + 1) s.toList ⟨1, false, []⟩ (Nat.lt_succ_self _)

/-- C8 witness: fuel-independence and totality at the concrete input
`"@"`. -/
theorem C8_termination_progress_witness :
    scanLoop 2 (("@").toList) ⟨1, false, []⟩ = scanLoop 3 (("@").toList) ⟨1, false, []⟩ ∧
    scan_tokens ("@") ≠ [] :=
  ⟨C8_termination_progress.1 2 3 (("@").toList) ⟨1, false, []⟩ (by decide) (by decide),
   C8_termination_progress.2.2 ("@")⟩

/-- C9: every `Number` token produced by `scan_tokens` carries a spelling of
the form digits, optionally followed by a dot and more digits, and that
spelling is accepted by the floating-point grammar (modelled from the spec:
Rust's documented `f64` `FromStr` acceptance), so the malformed-number error
branch is unreachable for scanner-produced tokens. -/
theorem C9_number_tokens (s : String) :
    ∀ t ∈ scan_tokens s, ∀ v, t.token_type = .Number v →
      numberShape v = true ∧ parsesAsF64 v = true := by
  intro t ht v hv
  have hgE : scan_tokens s = scanLoop (s.toList.length + 1) s.toList ⟨1, false, []⟩ := rfl
  rw [hgE] at ht
  exact scanLoop_number_shape _ _ _ (Nat.lt_succ_self _) t ht v hv

/-- C9 witness: the `Number` token of input `"1.5"`. -/
theorem C9_number_tokens_witness :
    numberShape (("1.5").toList) = true ∧ parsesAsF64 (("1.5").toList) = true :=
  C9_number_tokens ("1.5") ⟨.Number (("1.5").toList), 1⟩ (by decide)
    (("1.5").toList) rfl

/-- C10: an underscore reached in normal mode is not an identifier start: it
falls through every dispatch arm to the catch-all and yields an `Error`
token carrying the underscore, even though underscore is accepted inside an
identifier after a leading letter; `"_"` scans to an `Error` and `"a_"` to
the single identifier `a_`. -/
theorem C10_leading_underscore :
    (∀ (rest : List Char) (st : ScanSt), st.inString = false →
      scanStep '_' rest st = (some ⟨.Error '_' st.line, st.line⟩, rest, st)) ∧
    isIdentChar '_' = true ∧
    scan_tokens ("_") = [⟨.Error '_' 1, 1⟩, ⟨.Eof, 1⟩] ∧
    scan_tokens ("a_") = [⟨.Identifier (("a_").toList), 1⟩, ⟨.Eof, 1⟩] := by
  refine ⟨?_, by decide, by decide, by decide⟩
  intro rest st h
  simp +decide [scanStep, h]

/-- C10 witness: the underscore step at the concrete state of line 1. -/
theorem C10_leading_underscore_witness :
    scanStep '_' [] ⟨1, false, []⟩ = (some ⟨.Error '_' 1, 1⟩, [], ⟨1, false, []⟩) :=
  C10_leading_underscore.1 [] ⟨1, false, []⟩ rfl

/-- C2 counterexample: the claim fails because characters with their own
dispatch arms (digits, punctuation, operators, newlines) are matched before
the in-string arm, so they are scanned as normal tokens instead of being
appended to the string buffer.  Scanning the fully quoted literal
`"1"` yields a `Number` token for the digit and a `String` token whose text
is empty — not a `String` token whose text is the quoted character. -/
theorem C2_counterexample :
    scan_tokens ("\"1\"") =
      [⟨.Number (("1").toList), 1⟩, ⟨.String [], 1⟩, ⟨.Eof, 1⟩] ∧
    ∀ t ∈ scan_tokens ("\"1\""), t.token_type ≠ .String (("1").toList) := by
  decide

/-- C2 (amended): for a string literal both of whose quotes appear in the
input, the emitted `String` token's text equals the source characters
between the quotes verbatim — with no escape decoding, backslashes kept —
provided every such character lacks a dispatch arm of its own (it is not a
newline, punctuation, operator, quote, slash or digit); `"a\b"` scans to the
single `String` token `a\b`. -/
theorem C2_string_verbatim :
    (∀ (content rest : List Char) (line : Nat) (fuel : Nat),
      (∀ c ∈ content, isStringContentChar c = true) →
      scanLoop (content.length + 2 + fuel) ('"' :: (content ++ '"' :: rest))
          ⟨line, false, []⟩ =
        ⟨.String content, line⟩ :: scanLoop fuel rest ⟨line, false, []⟩) ∧
    scan_tokens ("\"a\\b\"") = [⟨.String (("a\\b").toList), 1⟩, ⟨.Eof, 1⟩] := by
  refine ⟨?_, by decide⟩
  intro content rest line fuel hc
  have hfe : content.length + 2 + fuel = (content.length + 1 + fuel) + 1 := by omega
  rw [hfe]
  simp only [scanLoop]
  rw [scanStep_quote]
  rw [if_neg (by exact Bool.false_ne_true)]
  simp only [Option.toList_none, List.nil_append]
  have hrun := scanLoop_string_run content rest ⟨line, true, []⟩ fuel hc rfl
  simp only [List.nil_append] at hrun
  exact hrun

/-- C2 (amended) witness: the verbatim run at the concrete content
`a\b`. -/
theorem C2_string_verbatim_witness :
    scanLoop ((("a\\b").toList).length + 2 + 0)
        ('"' :: ((("a\\b").toList) ++ '"' :: [])) ⟨1, false, []⟩ =
      ⟨.String (("a\\b").toList), 1⟩ :: scanLoop 0 [] ⟨1, false, []⟩ :=
  C2_string_verbatim.1 (("a\\b").toList) [] 1 0 (by decide)
